import Mathlib

/-!
Verification of the `AppendStore` (src/packages/storage/borsh/src/append_store.rs)
and `DequeStore` (src/packages/storage/plus/src/deque_store.rs) persistent
sequence structures of the shade-plus repository.

Modelling conventions:
* The storage substrate (`cosmwasm_std::Storage`) is a partial map from byte
  keys to byte values; bytes are naturals (values produced by the code are
  always < 256).
* `u32` values are naturals with an explicit `% 2^32` at every point where the
  Rust code performs wrapping arithmetic (`overflowing_add`, `overflowing_sub`,
  `to_be_bytes` truncation, release-mode `+`).  `usize` is modelled as an
  unbounded natural; the `n as u32` cast inside `nth`/`nth_back` truncates
  modulo `2^32`, matching 64-bit targets (on wasm32 the `usize` product in
  `paging` wraps at the multiplication instead; the observable paging results
  coincide because the iterator cursor starts at 0).
* The `Mutex<Option<u32>>` length/offset caches of a store handle are pure
  memoisations of the persisted counters: every write path (`set_len`,
  `set_off`) updates cache and storage together, so for a single handle the
  cached value never diverges from the persisted one.  The embedding therefore
  reads the counters from storage directly.
* The pluggable serialisation (`Ser: Serde` resp. `Borsh`) is a codec record
  with fallible `ser`/`de`, exactly as in the source.
-/

/-- Wrap modulus of 32-bit unsigned arithmetic. -/
def U32 : Nat := 2 ^ 32

/-- Big-endian byte encoding of a `u32` (`u32::to_be_bytes`); truncates the
input modulo `2^32` exactly as the Rust cast does. -/
def toBe (n : Nat) : List Nat :=
  [n / 2 ^ 24 % 256, n / 2 ^ 16 % 256, n / 2 ^ 8 % 256, n % 256]

/-- Errors of `cosmwasm_std::StdError` as used by the two stores. -/
inductive StdErr where
  | genericErr (msg : String)
  | notFound (ty : String)
  | parseErr (ty : String)
  | serializeErr (ty : String)
  deriving DecidableEq, Repr

/-- Decode exactly four big-endian bytes (`TryInto<[u8;4]>` + `from_be_bytes`);
any other length is the `parse_err("u32", ..)` branch. -/
def fromBe4 : List Nat → Except StdErr Nat
  | [a, b, c, d] => .ok (a * 2 ^ 24 + b * 2 ^ 16 + c * 2 ^ 8 + d)
  | _ => .error (.parseErr "u32")

/-- The storage substrate: exact-key get/set over byte strings. -/
def Stor : Type := List Nat → Option (List Nat)

/-- Exact-key read (`Storage::get`). -/
def Stor.get (s : Stor) (k : List Nat) : Option (List Nat) := s k

/-- Exact-key write (`Storage::set`). -/
def Stor.set (s : Stor) (k v : List Nat) : Stor :=
  fun k2 => if k2 = k then some v else s k2

/-- The empty substrate. -/
def emptyStor : Stor := fun _ => none

/-- A pluggable codec (`Serde` / `Borsh`): fallible serialise/deserialise. -/
structure Codec (T : Type) where
  ser : T → Except StdErr (List Nat)
  de : List Nat → Except StdErr T

/-- A codec round-trips when deserialising a serialised value restores it
(this also forces `ser` to be total). -/
def Codec.RoundTrip {T : Type} (C : Codec T) : Prop :=
  ∀ x : T, (C.ser x).bind C.de = .ok x

/-- Concrete round-tripping codec on naturals, used for witnesses. -/
def natCodec : Codec Nat where
  ser n := .ok [n]
  de l := match l with
    | [n] => .ok n
    | _ => .error (.parseErr "Nat")

theorem natCodec_roundTrip : natCodec.RoundTrip := fun _ => rfl

namespace DequeStore

/-- Byte suffix of the length counter key (`b"len"`). -/
def lenSuffix : List Nat := [108, 101, 110]

/-- Byte suffix of the offset counter key (`b"off"`). -/
def offSuffix : List Nat := [111, 102, 102]

/-- Key of the persisted length counter: `namespace || "len"`. -/
def lenKey (pfx : List Nat) : List Nat := pfx ++ lenSuffix

/-- Key of the persisted offset counter: `namespace || "off"`. -/
def offKey (pfx : List Nat) : List Nat := pfx ++ offSuffix

/-- Key of the physical slot `p`: `namespace || big_endian_u32(p)`. -/
def slotKey (pfx : List Nat) (p : Nat) : List Nat := pfx ++ toBe p

/-- Shared counter read (`_get_u32`): absent key defaults to 0, a present
value must be exactly four bytes. -/
def getU32 (pfx key : List Nat) (st : Stor) : Except StdErr Nat :=
  match st.get (pfx ++ key) with
  | some v => fromBe4 v
  | none => .ok 0

/-- Value returned by `get_len` (cache = memoised persisted counter). -/
def get_len (pfx : List Nat) (st : Stor) : Except StdErr Nat :=
  getU32 pfx lenSuffix st

/-- Value returned by `get_off`. -/
def get_off (pfx : List Nat) (st : Stor) : Except StdErr Nat :=
  getU32 pfx offSuffix st

/-- Logical position to physical index (`_get_offset_pos`):
`pos.overflowing_add(off).0`. -/
def getOffsetPos (pfx : List Nat) (st : Stor) (pos : Nat) : Except StdErr Nat :=
  (get_off pfx st).map (fun off => (pos + off) % U32)

/-- Read and deserialise one entry (`load_impl`). -/
def load_impl {T : Type} (C : Codec T) (pfx key : List Nat) (st : Stor) :
    Except StdErr T :=
  match st.get (pfx ++ key) with
  | none => .error (.notFound "T")
  | some v => C.de v

/-- Serialise and write one entry (`save_impl`). -/
def save_impl {T : Type} (C : Codec T) (pfx key : List Nat) (st : Stor) (item : T) :
    Except StdErr Unit × Stor :=
  match C.ser item with
  | .error e => (.error e, st)
  | .ok v => (.ok (), st.set (pfx ++ key) v)

/-- Unchecked positional read (`get_at_unchecked`). -/
def get_at_unchecked {T : Type} (C : Codec T) (pfx : List Nat) (st : Stor) (pos : Nat) :
    Except StdErr T :=
  (getOffsetPos pfx st pos).bind (fun p => load_impl C pfx (toBe p) st)

/-- Bounds-checked positional read (`get_at`); the deque uses the strict
`pos >= len` check. -/
def get_at {T : Type} (C : Codec T) (pfx : List Nat) (st : Stor) (pos : Nat) :
    Except StdErr T :=
  (get_len pfx st).bind (fun len =>
    if pos ≥ len then .error (.genericErr "DequeStore access out of bounds")
    else get_at_unchecked C pfx st pos)

/-- Persist a counter (`_set_u32`). -/
def setU32 (pfx key : List Nat) (n : Nat) (st : Stor) : Stor :=
  st.set (pfx ++ key) (toBe n)

/-- Persist the length (`set_len`; also refreshes the cache). -/
def set_len (pfx : List Nat) (n : Nat) (st : Stor) : Stor :=
  setU32 pfx lenSuffix n st

/-- Persist the offset (`set_off`). -/
def set_off (pfx : List Nat) (n : Nat) (st : Stor) : Stor :=
  setU32 pfx offSuffix n st

/-- Reset both counters to zero (`clear`); nothing is deleted. -/
def clear (pfx : List Nat) (st : Stor) : Stor :=
  set_off pfx 0 (set_len pfx 0 st)

/-- Unchecked positional write (`set_at_unchecked`). -/
def set_at_unchecked {T : Type} (C : Codec T) (pfx : List Nat) (st : Stor)
    (pos : Nat) (item : T) : Except StdErr Unit × Stor :=
  match getOffsetPos pfx st pos with
  | .error e => (.error e, st)
  | .ok p => save_impl C pfx (toBe p) st item

/-- Append at the back (`push_back`): write at `physical(len)`, then
`len := len + 1` (u32 wrap made explicit). -/
def push_back {T : Type} (C : Codec T) (pfx : List Nat) (st : Stor) (item : T) :
    Except StdErr Unit × Stor :=
  match get_len pfx st with
  | .error e => (.error e, st)
  | .ok len =>
    match set_at_unchecked C pfx st len item with
    | (.error e, st1) => (.error e, st1)
    | (.ok _, st1) => (.ok (), set_len pfx ((len + 1) % U32) st1)

/-- Prepend at the front (`push_front`): `offset := offset.overflowing_sub(1)`,
write at the new `physical(0)`, then `len := len + 1`. -/
def push_front {T : Type} (C : Codec T) (pfx : List Nat) (st : Stor) (item : T) :
    Except StdErr Unit × Stor :=
  match get_off pfx st with
  | .error e => (.error e, st)
  | .ok off =>
    match get_len pfx st with
    | .error e => (.error e, st)
    | .ok len =>
      let st1 := set_off pfx ((off + (U32 - 1)) % U32) st
      match set_at_unchecked C pfx st1 0 item with
      | (.error e, st2) => (.error e, st2)
      | (.ok _, st2) => (.ok (), set_len pfx ((len + 1) % U32) st2)

/-- Pop from the back (`pop_back`): the decremented length is persisted even
when the slot read fails. -/
def pop_back {T : Type} (C : Codec T) (pfx : List Nat) (st : Stor) :
    Except StdErr T × Stor :=
  match get_len pfx st with
  | .error e => (.error e, st)
  | .ok len =>
    if len = 0 then (.error (.genericErr "Can not pop from empty DequeStore"), st)
    else
      let item := get_at_unchecked C pfx st (len - 1)
      (item, set_len pfx (len - 1) st)

/-- Pop from the front (`pop_front`): persists `len - 1` and the advanced
offset even when the slot read fails. -/
def pop_front {T : Type} (C : Codec T) (pfx : List Nat) (st : Stor) :
    Except StdErr T × Stor :=
  match get_len pfx st with
  | .error e => (.error e, st)
  | .ok len =>
    if len = 0 then (.error (.genericErr "Can not pop from empty DequeStore"), st)
    else
      match get_off pfx st with
      | .error e => (.error e, st)
      | .ok off =>
        let item := get_at_unchecked C pfx st 0
        (item, set_off pfx ((off + 1) % U32) (set_len pfx (len - 1) st))

/-- Tail-ward shift loop of `remove`: `for i in pos..(len-1)` moving slot
`i+1` down to slot `i`; `cnt` is the number of remaining iterations and `i`
the current index. -/
def shiftTailAux {T : Type} (C : Codec T) (pfx : List Nat) :
    Nat → Nat → Stor → Except StdErr Unit × Stor
  | _, 0, st => (.ok (), st)
  | i, cnt + 1, st =>
    match get_at_unchecked C pfx st (i + 1) with
    | .error e => (.error e, st)
    | .ok v =>
      match set_at_unchecked C pfx st i v with
      | (.error e, st1) => (.error e, st1)
      | (.ok _, st1) => shiftTailAux C pfx (i + 1) cnt st1

/-- Head-ward shift loop of `remove`: `for i in (0..pos).rev()` moving slot
`i` up to slot `i+1`; the argument counts the remaining indices, the current
index being one less. -/
def shiftHeadAux {T : Type} (C : Codec T) (pfx : List Nat) :
    Nat → Stor → Except StdErr Unit × Stor
  | 0, st => (.ok (), st)
  | k + 1, st =>
    match get_at_unchecked C pfx st k with
    | .error e => (.error e, st)
    | .ok v =>
      match set_at_unchecked C pfx st (k + 1) v with
      | (.error e, st1) => (.error e, st1)
      | (.ok _, st1) => shiftHeadAux C pfx k st1

/-- Arbitrary-position removal (`remove`): bounds check, read the target,
shift toward the closer tip (`to_tail < pos` strict), bump the offset in the
head-ward branch, then decrement the length. -/
def remove {T : Type} (C : Codec T) (pfx : List Nat) (st : Stor) (pos : Nat) :
    Except StdErr T × Stor :=
  match get_off pfx st with
  | .error e => (.error e, st)
  | .ok off =>
    match get_len pfx st with
    | .error e => (.error e, st)
    | .ok len =>
      if pos ≥ len then (.error (.genericErr "DequeStorage access out of bounds"), st)
      else
        let item := get_at_unchecked C pfx st pos
        if len - pos < pos then
          match shiftTailAux C pfx pos (len - 1 - pos) st with
          | (.error e, st1) => (.error e, st1)
          | (.ok _, st1) => (item, set_len pfx (len - 1) st1)
        else
          match shiftHeadAux C pfx pos st with
          | (.error e, st1) => (.error e, st1)
          | (.ok _, st1) =>
            (item, set_len pfx (len - 1) (set_off pfx ((off + 1) % U32) st1))

/-- Cursor of `DequeStoreIter`: the `[start, stop)` window of logical
positions (`end` in the source). -/
structure Iter where
  start : Nat
  stop : Nat
  deriving DecidableEq, Repr

/-- Iterator construction (`iter`): the full `[0, len)` window. -/
def iter (pfx : List Nat) (st : Stor) : Except StdErr Iter :=
  (get_len pfx st).map (fun len => ⟨0, len⟩)

/-- Forward step (`Iterator::next`): read `start`, then advance it. -/
def iterNext {T : Type} (C : Codec T) (pfx : List Nat) (st : Stor) (it : Iter) :
    Option (Except StdErr T) × Iter :=
  if it.start ≥ it.stop then (none, it)
  else (some (get_at C pfx st it.start), ⟨it.start + 1, it.stop⟩)

/-- Cheap skip (`Iterator::nth`): `start := start.saturating_add(n as u32)`,
then `next`. -/
def iterNth {T : Type} (C : Codec T) (pfx : List Nat) (st : Stor) (it : Iter)
    (n : Nat) : Option (Except StdErr T) × Iter :=
  iterNext C pfx st ⟨min (it.start + n % U32) (U32 - 1), it.stop⟩

/-- Backward step (`DoubleEndedIterator::next_back`): decrement `stop`, read
the new `stop`. -/
def iterNextBack {T : Type} (C : Codec T) (pfx : List Nat) (st : Stor) (it : Iter) :
    Option (Except StdErr T) × Iter :=
  if it.start ≥ it.stop then (none, it)
  else (some (get_at C pfx st (it.stop - 1)), ⟨it.start, it.stop - 1⟩)

/-- Cheap back-skip (`nth_back`): `stop := stop.saturating_sub(n as u32)`,
then `next_back`. -/
def iterNthBack {T : Type} (C : Codec T) (pfx : List Nat) (st : Stor) (it : Iter)
    (n : Nat) : Option (Except StdErr T) × Iter :=
  iterNextBack C pfx st ⟨it.start, it.stop - n % U32⟩

/-- Collecting up to `k` forward steps into `StdResult<Vec<T>>`
(`take(k).collect()`): stops at exhaustion, fails at the first error item. -/
def collectN {T : Type} (C : Codec T) (pfx : List Nat) (st : Stor) :
    Nat → Iter → Except StdErr (List T)
  | 0, _ => .ok []
  | k + 1, it =>
    match iterNext C pfx st it with
    | (none, _) => .ok []
    | (some (.error e), _) => .error e
    | (some (.ok x), it1) => (collectN C pfx st k it1).map (fun l => x :: l)

/-- Composition `skip(n).take(k).collect()` as executed by the Rust standard
library: the first `Skip::next` (when `n > 0`) runs `iter.nth(n - 1)`,
discards the result (`None` short-circuits), then takes one `next`; the
remaining steps are plain `next` calls. -/
def skipTakeCollect {T : Type} (C : Codec T) (pfx : List Nat) (st : Stor)
    (n k : Nat) (it : Iter) : Except StdErr (List T) :=
  match n, k with
  | 0, k => collectN C pfx st k it
  | _ + 1, 0 => .ok []
  | n1 + 1, k + 1 =>
    match iterNth C pfx st it n1 with
    | (none, _) => .ok []
    | (some _, it1) =>
      match iterNext C pfx st it1 with
      | (none, _) => .ok []
      | (some (.error e), _) => .error e
      | (some (.ok x), it2) => (collectN C pfx st k it2).map (fun l => x :: l)

/-- Page-based retrieval (`paging`):
`iter()?.skip(start_page * size).take(size).collect()`. -/
def paging {T : Type} (C : Codec T) (pfx : List Nat) (st : Stor) (p s : Nat) :
    Except StdErr (List T) :=
  match iter pfx st with
  | .error e => .error e
  | .ok it => skipTakeCollect C pfx st (p * s) s it

/-- Cursor advance by one, discarding the visited item. -/
def skipOne {T : Type} (C : Codec T) (pfx : List Nat) (st : Stor) (it : Iter) : Iter :=
  (iterNext C pfx st it).2

/-- Modelled from the spec: `paging(p, s)` as
`iterate().skip(p*s).take(s).collect()` "where the skip is performed one
element at a time" — `p * s` single forward steps, then `take(s).collect()`. -/
def pagingSpec {T : Type} (C : Codec T) (pfx : List Nat) (st : Stor) (p s : Nat) :
    Except StdErr (List T) :=
  match iter pfx st with
  | .error e => .error e
  | .ok it => collectN C pfx st s ((skipOne C pfx st)^[p * s] it)

/-- Exhaustive front-to-back iteration: `iter()` followed by `next` until
`None`, collected like `collect::<StdResult<Vec<T>>>()`. -/
def iterAll {T : Type} (C : Codec T) (pfx : List Nat) (st : Stor) :
    Except StdErr (List T) :=
  match iter pfx st with
  | .error e => .error e
  | .ok it => collectN C pfx st (it.stop - it.start) it

end DequeStore

/-- One `push_back`/`push_front` call on a `DequeStore`. -/
inductive DOp (T : Type) where
  | pushBack (x : T)
  | pushFront (x : T)
  deriving DecidableEq, Repr

/-- Apply a sequence of pushes to a deque state, keeping whatever state each
call leaves behind. -/
def applyOps {T : Type} (C : Codec T) (pfx : List Nat) :
    List (DOp T) → Stor → Stor
  | [], st => st
  | .pushBack x :: ops, st => applyOps C pfx ops (DequeStore.push_back C pfx st x).2
  | .pushFront x :: ops, st => applyOps C pfx ops (DequeStore.push_front C pfx st x).2

/-- Logical order implied by a push sequence: each `push_front` item comes
before all earlier items, each `push_back` item after all earlier items. -/
def modelOps {T : Type} : List (DOp T) → List T → List T
  | [], m => m
  | .pushBack x :: ops, m => modelOps ops (m ++ [x])
  | .pushFront x :: ops, m => modelOps ops (x :: m)

/-- Initial substrate of a fresh namespace whose persisted offset has been
set to `o` (length absent, no slots). -/
def initStor (pfx : List Nat) (o : Nat) : Stor :=
  Stor.set emptyStor (DequeStore.offKey pfx) (toBe o)

namespace AppendStore

/-- Key of the persisted length counter: `namespace || "len"`. -/
def lenKey (pfx : List Nat) : List Nat := pfx ++ DequeStore.lenSuffix

/-- Key of physical slot `p`: `namespace || big_endian_u32(p)`. -/
def slotKey (pfx : List Nat) (p : Nat) : List Nat := pfx ++ toBe p

/-- Value returned by `get_len` (cache = memoised persisted counter; absent
key defaults to 0, a present value must be exactly four bytes). -/
def get_len (pfx : List Nat) (st : Stor) : Except StdErr Nat :=
  match st.get (pfx ++ DequeStore.lenSuffix) with
  | some v => fromBe4 v
  | none => .ok 0

/-- Read and deserialise one entry (`load_impl`). -/
def load_impl {T : Type} (C : Codec T) (pfx key : List Nat) (st : Stor) :
    Except StdErr T :=
  match st.get (pfx ++ key) with
  | none => .error (.notFound "T")
  | some v => C.de v

/-- Serialise and write one entry (`save_impl`). -/
def save_impl {T : Type} (C : Codec T) (pfx key : List Nat) (st : Stor) (item : T) :
    Except StdErr Unit × Stor :=
  match C.ser item with
  | .error e => (.error e, st)
  | .ok v => (.ok (), st.set (pfx ++ key) v)

/-- Unchecked positional read (`get_at_unchecked`): key is
`pos.to_be_bytes()`. -/
def get_at_unchecked {T : Type} (C : Codec T) (pfx : List Nat) (st : Stor) (pos : Nat) :
    Except StdErr T :=
  load_impl C pfx (toBe pos) st

/-- Bounds-checked positional read (`get_at`).  The source checks
`pos > len` (not `pos >= len`), so `pos == len` slips through to the raw
slot read; this is embedded faithfully. -/
def get_at {T : Type} (C : Codec T) (pfx : List Nat) (st : Stor) (pos : Nat) :
    Except StdErr T :=
  (get_len pfx st).bind (fun len =>
    if pos > len then .error (.genericErr "AppendStore access out of bounds")
    else get_at_unchecked C pfx st pos)

/-- Persist the length (`set_len`; also refreshes the cache). -/
def set_len (pfx : List Nat) (n : Nat) (st : Stor) : Stor :=
  st.set (pfx ++ DequeStore.lenSuffix) (toBe n)

/-- Reset the length to zero (`clear`); nothing is deleted. -/
def clear (pfx : List Nat) (st : Stor) : Stor :=
  set_len pfx 0 st

/-- Unchecked positional write (`set_at_unchecked`). -/
def set_at_unchecked {T : Type} (C : Codec T) (pfx : List Nat) (st : Stor)
    (pos : Nat) (item : T) : Except StdErr Unit × Stor :=
  save_impl C pfx (toBe pos) st item

/-- Append (`push`): write at index `len`, then `len := len + 1` (u32 wrap
made explicit). -/
def push {T : Type} (C : Codec T) (pfx : List Nat) (st : Stor) (item : T) :
    Except StdErr Unit × Stor :=
  match get_len pfx st with
  | .error e => (.error e, st)
  | .ok len =>
    match set_at_unchecked C pfx st len item with
    | (.error e, st1) => (.error e, st1)
    | (.ok _, st1) => (.ok (), set_len pfx ((len + 1) % U32) st1)

/-- Pop from the back (`pop`): the decremented length is persisted even when
the slot read fails. -/
def pop {T : Type} (C : Codec T) (pfx : List Nat) (st : Stor) :
    Except StdErr T × Stor :=
  match get_len pfx st with
  | .error e => (.error e, st)
  | .ok len =>
    if len = 0 then (.error (.genericErr "Can not pop from empty AppendStore"), st)
    else
      let item := get_at_unchecked C pfx st (len - 1)
      (item, set_len pfx (len - 1) st)

/-- Tail-ward shift loop of `remove`: `for i in pos..(len-1)` moving slot
`i+1` down to slot `i`. -/
def shiftTailAux {T : Type} (C : Codec T) (pfx : List Nat) :
    Nat → Nat → Stor → Except StdErr Unit × Stor
  | _, 0, st => (.ok (), st)
  | i, cnt + 1, st =>
    match get_at_unchecked C pfx st (i + 1) with
    | .error e => (.error e, st)
    | .ok v =>
      match set_at_unchecked C pfx st i v with
      | (.error e, st1) => (.error e, st1)
      | (.ok _, st1) => shiftTailAux C pfx (i + 1) cnt st1

/-- Arbitrary-position removal (`remove`): always the tail-ward shift, then
decrement the length. -/
def remove {T : Type} (C : Codec T) (pfx : List Nat) (st : Stor) (pos : Nat) :
    Except StdErr T × Stor :=
  match get_len pfx st with
  | .error e => (.error e, st)
  | .ok len =>
    if pos ≥ len then (.error (.genericErr "DequeStorage access out of bounds"), st)
    else
      let item := get_at_unchecked C pfx st pos
      match shiftTailAux C pfx pos (len - 1 - pos) st with
      | (.error e, st1) => (.error e, st1)
      | (.ok _, st1) => (item, set_len pfx (len - 1) st1)

/-- Iterator construction (`iter`): the full `[0, len)` window, sharing the
cursor shape with the deque iterator. -/
def iter (pfx : List Nat) (st : Stor) : Except StdErr DequeStore.Iter :=
  (get_len pfx st).map (fun len => ⟨0, len⟩)

/-- Forward step (`Iterator::next`). -/
def iterNext {T : Type} (C : Codec T) (pfx : List Nat) (st : Stor)
    (it : DequeStore.Iter) : Option (Except StdErr T) × DequeStore.Iter :=
  if it.start ≥ it.stop then (none, it)
  else (some (get_at C pfx st it.start), ⟨it.start + 1, it.stop⟩)

/-- Cheap skip (`Iterator::nth`): `start := start.saturating_add(n as u32)`,
then `next`. -/
def iterNth {T : Type} (C : Codec T) (pfx : List Nat) (st : Stor)
    (it : DequeStore.Iter) (n : Nat) : Option (Except StdErr T) × DequeStore.Iter :=
  iterNext C pfx st ⟨min (it.start + n % U32) (U32 - 1), it.stop⟩

/-- Backward step (`next_back`). -/
def iterNextBack {T : Type} (C : Codec T) (pfx : List Nat) (st : Stor)
    (it : DequeStore.Iter) : Option (Except StdErr T) × DequeStore.Iter :=
  if it.start ≥ it.stop then (none, it)
  else (some (get_at C pfx st (it.stop - 1)), ⟨it.start, it.stop - 1⟩)

/-- Cheap back-skip (`nth_back`): `stop := stop.saturating_sub(n as u32)`,
then `next_back`. -/
def iterNthBack {T : Type} (C : Codec T) (pfx : List Nat) (st : Stor)
    (it : DequeStore.Iter) (n : Nat) : Option (Except StdErr T) × DequeStore.Iter :=
  iterNextBack C pfx st ⟨it.start, it.stop - n % U32⟩

/-- Collecting up to `k` forward steps into `StdResult<Vec<T>>`. -/
def collectN {T : Type} (C : Codec T) (pfx : List Nat) (st : Stor) :
    Nat → DequeStore.Iter → Except StdErr (List T)
  | 0, _ => .ok []
  | k + 1, it =>
    match iterNext C pfx st it with
    | (none, _) => .ok []
    | (some (.error e), _) => .error e
    | (some (.ok x), it1) => (collectN C pfx st k it1).map (fun l => x :: l)

/-- Composition `skip(n).take(k).collect()` as executed by the Rust standard
library (see `DequeStore.skipTakeCollect`). -/
def skipTakeCollect {T : Type} (C : Codec T) (pfx : List Nat) (st : Stor)
    (n k : Nat) (it : DequeStore.Iter) : Except StdErr (List T) :=
  match n, k with
  | 0, k => collectN C pfx st k it
  | _ + 1, 0 => .ok []
  | n1 + 1, k + 1 =>
    match iterNth C pfx st it n1 with
    | (none, _) => .ok []
    | (some _, it1) =>
      match iterNext C pfx st it1 with
      | (none, _) => .ok []
      | (some (.error e), _) => .error e
      | (some (.ok x), it2) => (collectN C pfx st k it2).map (fun l => x :: l)

/-- Page-based retrieval (`paging`):
`iter()?.skip(start_page * size).take(size).collect()`. -/
def paging {T : Type} (C : Codec T) (pfx : List Nat) (st : Stor) (p s : Nat) :
    Except StdErr (List T) :=
  match iter pfx st with
  | .error e => .error e
  | .ok it => skipTakeCollect C pfx st (p * s) s it

/-- Cursor advance by one, discarding the visited item. -/
def skipOne {T : Type} (C : Codec T) (pfx : List Nat) (st : Stor)
    (it : DequeStore.Iter) : DequeStore.Iter :=
  (iterNext C pfx st it).2

/-- Modelled from the spec: `paging(p, s)` as skip-one-element-at-a-time
followed by `take(s).collect()`. -/
def pagingSpec {T : Type} (C : Codec T) (pfx : List Nat) (st : Stor) (p s : Nat) :
    Except StdErr (List T) :=
  match iter pfx st with
  | .error e => .error e
  | .ok it => collectN C pfx st s ((skipOne C pfx st)^[p * s] it)

/-- Exhaustive front-to-back iteration, collected. -/
def iterAll {T : Type} (C : Codec T) (pfx : List Nat) (st : Stor) :
    Except StdErr (List T) :=
  match iter pfx st with
  | .error e => .error e
  | .ok it => collectN C pfx st (it.stop - it.start) it

end AppendStore

/-! Basic facts about byte encoding, keys and the substrate. -/

theorem fromBe4_toBe (n : Nat) : fromBe4 (toBe n) = .ok (n % U32) := by
  simp only [toBe, fromBe4, U32]
  congr 1
  omega

theorem toBe_eq_iff {a b : Nat} : toBe a = toBe b ↔ a % U32 = b % U32 := by
  constructor
  · intro h
    have h2 := congrArg fromBe4 h
    rw [fromBe4_toBe, fromBe4_toBe] at h2
    exact Except.ok.inj h2
  · intro h
    simp only [toBe, List.cons.injEq, and_true]
    simp only [U32] at h
    omega

theorem toBe_length (n : Nat) : (toBe n).length = 4 := rfl

theorem Stor.get_set_self (s : Stor) (k v : List Nat) :
    (s.set k v).get k = some v := by
  simp [Stor.get, Stor.set]

theorem Stor.get_set_ne (s : Stor) (k v : List Nat) {k2 : List Nat} (h : k2 ≠ k) :
    (s.set k v).get k2 = s.get k2 := by
  simp [Stor.get, Stor.set, h]

/-- Pure mirror of the tail-ward shift loop: starting at index `i`, `c` steps
of `B[i] := B[i+1]`. -/
def tailShiftList {T : Type} : List T → Nat → Nat → List T
  | B, _, 0 => B
  | B, i, c + 1 =>
    match B[i + 1]? with
    | some v => tailShiftList (B.set i v) (i + 1) c
    | none => B

theorem tailShiftList_length {T : Type} :
    ∀ (c : Nat) (B : List T) (i : Nat), (tailShiftList B i c).length = B.length := by
  intro c
  induction c with
  | zero => intro B i; rfl
  | succ c ih =>
    intro B i
    unfold tailShiftList
    cases h : B[i + 1]? with
    | none => rfl
    | some v => rw [ih, List.length_set]

theorem tailShiftList_getElem? {T : Type} :
    ∀ (c : Nat) (B : List T) (i : Nat), i + c + 1 ≤ B.length → ∀ j,
      (tailShiftList B i c)[j]? = if i ≤ j ∧ j < i + c then B[j + 1]? else B[j]? := by
  intro c
  induction c with
  | zero =>
    intro B i _ j
    rw [if_neg (by omega)]
    rfl
  | succ c ih =>
    intro B i hb j
    have hi1 : i + 1 < B.length := by omega
    unfold tailShiftList
    rw [List.getElem?_eq_getElem hi1]
    show (tailShiftList (B.set i B[i + 1]) (i + 1) c)[j]? = _
    rw [ih (B.set i B[i + 1]) (i + 1) (by rw [List.length_set]; omega) j]
    by_cases h1 : i + 1 ≤ j ∧ j < i + 1 + c
    · rw [if_pos h1, if_pos (by omega), List.getElem?_set_ne (by omega)]
    · rw [if_neg h1]
      by_cases h2 : j = i
      · subst h2
        rw [if_pos (by omega), List.getElem?_set_self (by omega),
          List.getElem?_eq_getElem hi1]
      · rw [List.getElem?_set_ne (by omega), if_neg (by omega)]

/-- Pure mirror of the head-ward shift loop: for `k` from the argument minus
one down to zero, `B[k+1] := B[k]`. -/
def headShiftList {T : Type} : List T → Nat → List T
  | B, 0 => B
  | B, k + 1 =>
    match B[k]? with
    | some v => headShiftList (B.set (k + 1) v) k
    | none => B

theorem headShiftList_length {T : Type} :
    ∀ (k : Nat) (B : List T), (headShiftList B k).length = B.length := by
  intro k
  induction k with
  | zero => intro B; rfl
  | succ k ih =>
    intro B
    unfold headShiftList
    cases h : B[k]? with
    | none => rfl
    | some v => rw [ih, List.length_set]

theorem headShiftList_getElem? {T : Type} :
    ∀ (k : Nat) (B : List T), k < B.length → ∀ j,
      (headShiftList B k)[j]? = if 1 ≤ j ∧ j ≤ k then B[j - 1]? else B[j]? := by
  intro k
  induction k with
  | zero =>
    intro B _ j
    rw [if_neg (by omega)]
    rfl
  | succ k ih =>
    intro B hb j
    have hk : k < B.length := by omega
    unfold headShiftList
    rw [List.getElem?_eq_getElem hk]
    show (headShiftList (B.set (k + 1) B[k]) k)[j]? = _
    rw [ih (B.set (k + 1) B[k]) (by rw [List.length_set]; omega) j]
    by_cases h1 : 1 ≤ j ∧ j ≤ k
    · rw [if_pos h1, if_pos (by omega), List.getElem?_set_ne (by omega)]
    · rw [if_neg h1]
      by_cases h2 : j = k + 1
      · subst h2
        rw [if_pos (by omega), List.getElem?_set_self (by omega), Nat.add_sub_cancel,
          List.getElem?_eq_getElem hk]
      · rw [List.getElem?_set_ne (by omega), if_neg (by omega)]

theorem Codec.ser_ok_of_roundTrip {T : Type} {C : Codec T} (hC : C.RoundTrip) (x : T) :
    ∃ w, C.ser x = .ok w ∧ C.de w = .ok x := by
  have hb := hC x
  cases h : C.ser x with
  | error e => rw [h] at hb; exact absurd hb (by simp [Except.bind])
  | ok w => rw [h] at hb; exact ⟨w, rfl, hb⟩

theorem tailShift_take_eq_eraseIdx {T : Type} (model : List T) (pos : Nat)
    (hpos : pos < model.length) :
    (tailShiftList model pos (model.length - 1 - pos)).take (model.length - 1) =
      model.eraseIdx pos := by
  apply List.ext_getElem?
  intro j
  rw [List.getElem?_take, List.getElem?_eraseIdx]
  by_cases hj : j < model.length - 1
  · rw [if_pos hj, tailShiftList_getElem? _ _ _ (by omega) j]
    by_cases hjp : j < pos
    · rw [if_neg (by omega), if_pos hjp]
    · rw [if_pos (by omega), if_neg (by omega)]
  · rw [if_neg hj]
    by_cases hjp : j < pos
    · exact absurd hjp (by omega)
    · rw [if_neg hjp, List.getElem?_eq_none (by omega)]

theorem headShift_drop_eq_eraseIdx {T : Type} (model : List T) (pos : Nat)
    (hpos : pos < model.length) :
    (headShiftList model pos).drop 1 = model.eraseIdx pos := by
  apply List.ext_getElem?
  intro j
  rw [List.getElem?_drop, List.getElem?_eraseIdx,
    headShiftList_getElem? pos model hpos (1 + j)]
  by_cases hjp : j < pos
  · rw [if_pos (by omega), if_pos hjp]
    congr 1
    omega
  · rw [if_neg (by omega), if_neg hjp]
    congr 1
    omega

namespace DequeStore

theorem lenKey_ne_offKey (pfx : List Nat) : lenKey pfx ≠ offKey pfx := by
  intro h
  have h2 := List.append_cancel_left h
  simp [lenSuffix, offSuffix] at h2

theorem lenKey_ne_slotKey (pfx : List Nat) (p : Nat) : lenKey pfx ≠ slotKey pfx p := by
  intro h
  have h2 := List.append_cancel_left h
  have h3 := congrArg List.length h2
  simp [lenSuffix, toBe] at h3

theorem offKey_ne_slotKey (pfx : List Nat) (p : Nat) : offKey pfx ≠ slotKey pfx p := by
  intro h
  have h2 := List.append_cancel_left h
  have h3 := congrArg List.length h2
  simp [offSuffix, toBe] at h3

theorem slotKey_eq_iff (pfx : List Nat) {p q : Nat} :
    slotKey pfx p = slotKey pfx q ↔ p % U32 = q % U32 := by
  constructor
  · intro h
    exact toBe_eq_iff.mp (List.append_cancel_left h)
  · intro h
    exact congrArg (pfx ++ ·) (toBe_eq_iff.mpr h)

theorem get_len_set_len (pfx : List Nat) (n : Nat) (st : Stor) :
    get_len pfx (set_len pfx n st) = .ok (n % U32) := by
  unfold get_len getU32 set_len setU32
  rw [show pfx ++ lenSuffix = lenKey pfx from rfl, Stor.get_set_self]
  exact fromBe4_toBe n

theorem get_len_set_off (pfx : List Nat) (n : Nat) (st : Stor) :
    get_len pfx (set_off pfx n st) = get_len pfx st := by
  unfold get_len getU32 set_off setU32
  rw [show pfx ++ lenSuffix = lenKey pfx from rfl,
    show pfx ++ offSuffix = offKey pfx from rfl,
    Stor.get_set_ne _ _ _ (lenKey_ne_offKey pfx)]

theorem get_len_set_slot (pfx : List Nat) (p : Nat) (v : List Nat) (st : Stor) :
    get_len pfx (Stor.set st (slotKey pfx p) v) = get_len pfx st := by
  unfold get_len getU32
  rw [show pfx ++ lenSuffix = lenKey pfx from rfl,
    Stor.get_set_ne _ _ _ (lenKey_ne_slotKey pfx p)]

theorem get_off_set_off (pfx : List Nat) (n : Nat) (st : Stor) :
    get_off pfx (set_off pfx n st) = .ok (n % U32) := by
  unfold get_off getU32 set_off setU32
  rw [show pfx ++ offSuffix = offKey pfx from rfl, Stor.get_set_self]
  exact fromBe4_toBe n

theorem get_off_set_len (pfx : List Nat) (n : Nat) (st : Stor) :
    get_off pfx (set_len pfx n st) = get_off pfx st := by
  unfold get_off getU32 set_len setU32
  rw [show pfx ++ lenSuffix = lenKey pfx from rfl,
    show pfx ++ offSuffix = offKey pfx from rfl,
    Stor.get_set_ne _ _ _ (lenKey_ne_offKey pfx).symm]

theorem get_off_set_slot (pfx : List Nat) (p : Nat) (v : List Nat) (st : Stor) :
    get_off pfx (Stor.set st (slotKey pfx p) v) = get_off pfx st := by
  unfold get_off getU32
  rw [show pfx ++ offSuffix = offKey pfx from rfl,
    Stor.get_set_ne _ _ _ (offKey_ne_slotKey pfx p)]

/-- Representation invariant of a deque state: the persisted counters decode
to `model.length` and `off`, and logical position `i` is stored, serialised,
at physical slot `(i + off) % 2^32`. -/
structure Inv {T : Type} (C : Codec T) (pfx : List Nat) (st : Stor) (off : Nat)
    (model : List T) : Prop where
  offLt : off < U32
  lenLt : model.length < U32
  lenOk : get_len pfx st = .ok model.length
  offOk : get_off pfx st = .ok off
  slots : ∀ i : Nat, (h : i < model.length) →
    ∃ v, st.get (slotKey pfx ((i + off) % U32)) = some v ∧ C.ser model[i] = .ok v

theorem get_at_unchecked_inv {T : Type} {C : Codec T} (hC : C.RoundTrip)
    {pfx : List Nat} {st : Stor} {off : Nat} {model : List T}
    (hI : Inv C pfx st off model) {i : Nat} (h : i < model.length) :
    get_at_unchecked C pfx st i = .ok model[i] := by
  obtain ⟨v, hv, hser⟩ := hI.slots i h
  have hbind := hC model[i]
  rw [hser] at hbind
  unfold get_at_unchecked getOffsetPos
  rw [hI.offOk]
  show load_impl C pfx (toBe ((i + off) % U32)) st = .ok model[i]
  unfold load_impl
  rw [show pfx ++ toBe ((i + off) % U32) = slotKey pfx ((i + off) % U32) from rfl, hv]
  exact hbind

theorem get_at_inv {T : Type} {C : Codec T} (hC : C.RoundTrip)
    {pfx : List Nat} {st : Stor} {off : Nat} {model : List T}
    (hI : Inv C pfx st off model) {i : Nat} (h : i < model.length) :
    get_at C pfx st i = .ok model[i] := by
  unfold get_at
  rw [hI.lenOk]
  show (if i ≥ model.length then _ else get_at_unchecked C pfx st i) = _
  rw [if_neg (by omega)]
  exact get_at_unchecked_inv hC hI h

theorem set_at_unchecked_inv {T : Type} {C : Codec T}
    {pfx : List Nat} {st : Stor} {off : Nat}
    (hoff : get_off pfx st = .ok off) (i : Nat) (x : T) {w : List Nat}
    (hser : C.ser x = .ok w) :
    set_at_unchecked C pfx st i x =
      (.ok (), Stor.set st (slotKey pfx ((i + off) % U32)) w) := by
  unfold set_at_unchecked getOffsetPos
  rw [hoff]
  show save_impl C pfx (toBe ((i + off) % U32)) st x = _
  unfold save_impl
  rw [hser]
  rfl

theorem inv_set_slot {T : Type} {C : Codec T}
    {pfx : List Nat} {st : Stor} {off : Nat} {model : List T}
    (hI : Inv C pfx st off model) {i : Nat} (h : i < model.length) {x : T}
    {w : List Nat} (hser : C.ser x = .ok w) :
    Inv C pfx (Stor.set st (slotKey pfx ((i + off) % U32)) w) off (model.set i x) := by
  refine ⟨hI.offLt, by rw [List.length_set]; exact hI.lenLt, ?_, ?_, ?_⟩
  · rw [get_len_set_slot, List.length_set]
    exact hI.lenOk
  · rw [get_off_set_slot]
    exact hI.offOk
  · intro j hj
    rw [List.length_set] at hj
    by_cases hij : j = i
    · subst hij
      refine ⟨w, Stor.get_set_self _ _ _, ?_⟩
      rw [List.getElem_set]
      simp only [if_pos rfl]
      exact hser
    · have hkey : slotKey pfx ((j + off) % U32) ≠ slotKey pfx ((i + off) % U32) := by
        rw [Ne, slotKey_eq_iff]
        have h1 : j < U32 := lt_trans hj hI.lenLt
        have h2 : i < U32 := lt_trans h hI.lenLt
        simp only [U32] at h1 h2 ⊢
        omega
      obtain ⟨v, hv, hs⟩ := hI.slots j hj
      refine ⟨v, ?_, ?_⟩
      · rw [Stor.get_set_ne _ _ _ hkey]
        exact hv
      · rw [List.getElem_set, if_neg (by omega)]
        exact hs

theorem inv_set_len {T : Type} {C : Codec T}
    {pfx : List Nat} {st : Stor} {off : Nat} {model : List T}
    (hI : Inv C pfx st off model) {m : Nat} (hm : m ≤ model.length) :
    Inv C pfx (set_len pfx m st) off (model.take m) := by
  have hmlt : m < U32 := lt_of_le_of_lt hm hI.lenLt
  have hlen : (model.take m).length = m := by
    rw [List.length_take]
    omega
  refine ⟨hI.offLt, by rw [hlen]; exact hmlt, ?_, ?_, ?_⟩
  · rw [get_len_set_len, hlen, Nat.mod_eq_of_lt hmlt]
  · rw [get_off_set_len]
    exact hI.offOk
  · intro j hj
    rw [hlen] at hj
    obtain ⟨v, hv, hs⟩ := hI.slots j (lt_of_lt_of_le hj hm)
    refine ⟨v, ?_, ?_⟩
    · unfold set_len setU32
      rw [show pfx ++ lenSuffix = lenKey pfx from rfl,
        Stor.get_set_ne _ _ _ (lenKey_ne_slotKey pfx _).symm]
      exact hv
    · rw [List.getElem_take]
      exact hs

theorem front_key_eq (off j : Nat) :
    (j + 1 + (off + (U32 - 1)) % U32) % U32 = (j + off) % U32 := by
  simp only [U32]
  omega

theorem front_key_ne (off j : Nat) (h1 : j + 1 < U32) :
    ¬((j + 1 + (off + (U32 - 1)) % U32) % U32 % U32 =
      (0 + (off + (U32 - 1)) % U32 % U32) % U32 % U32) := by
  simp only [U32] at h1 ⊢
  omega

theorem inv_extend_back {T : Type} {C : Codec T}
    {pfx : List Nat} {st : Stor} {off : Nat} {model : List T}
    (hI : Inv C pfx st off model) {x : T} {w : List Nat} (hser : C.ser x = .ok w)
    (hlen : model.length + 1 < U32) :
    Inv C pfx
      (set_len pfx (model.length + 1)
        (Stor.set st (slotKey pfx ((model.length + off) % U32)) w))
      off (model ++ [x]) := by
  have hlen2 : (model ++ [x]).length = model.length + 1 := by
    simp
  refine ⟨hI.offLt, by rw [hlen2]; exact hlen, ?_, ?_, ?_⟩
  · rw [get_len_set_len, hlen2, Nat.mod_eq_of_lt hlen]
  · rw [get_off_set_len, get_off_set_slot]
    exact hI.offOk
  · intro j hj
    rw [hlen2] at hj
    have hframe : ∀ p v2, (set_len pfx (model.length + 1) st).get (slotKey pfx p) = v2 ↔
        st.get (slotKey pfx p) = v2 := by
      intro p v2
      unfold set_len setU32
      rw [show pfx ++ lenSuffix = lenKey pfx from rfl,
        Stor.get_set_ne _ _ _ (lenKey_ne_slotKey pfx _).symm]
    by_cases hje : j = model.length
    · subst hje
      refine ⟨w, ?_, ?_⟩
      · unfold set_len setU32
        rw [show pfx ++ lenSuffix = lenKey pfx from rfl,
          Stor.get_set_ne _ _ _ (lenKey_ne_slotKey pfx _).symm, Stor.get_set_self]
      · rw [show (model ++ [x])[model.length] = x from by
          have := List.getElem?_concat_length model x
          rw [List.getElem?_eq_getElem (by omega)] at this
          exact Option.some.inj this]
        exact hser
    · have hjlt : j < model.length := by omega
      obtain ⟨v, hv, hs⟩ := hI.slots j hjlt
      have hkey : slotKey pfx ((j + off) % U32) ≠ slotKey pfx ((model.length + off) % U32) := by
        rw [Ne, slotKey_eq_iff]
        have h1 : j < U32 := lt_trans hjlt hI.lenLt
        have h2 : model.length < U32 := hI.lenLt
        simp only [U32] at h1 h2 ⊢
        omega
      refine ⟨v, ?_, ?_⟩
      · unfold set_len setU32
        rw [show pfx ++ lenSuffix = lenKey pfx from rfl,
          Stor.get_set_ne _ _ _ (lenKey_ne_slotKey pfx _).symm,
          Stor.get_set_ne _ _ _ hkey]
        exact hv
      · rw [List.getElem_append]
        rw [dif_pos hjlt]
        exact hs

theorem push_back_spec {T : Type} {C : Codec T} (hC : C.RoundTrip)
    {pfx : List Nat} {st : Stor} {off : Nat} {model : List T}
    (hI : Inv C pfx st off model) (x : T) (hlen : model.length + 1 < U32) :
    (push_back C pfx st x).1 = .ok () ∧
      Inv C pfx (push_back C pfx st x).2 off (model ++ [x]) := by
  obtain ⟨w, hser, _⟩ := Codec.ser_ok_of_roundTrip hC x
  have hstep : push_back C pfx st x =
      (.ok (), set_len pfx ((model.length + 1) % U32)
        (Stor.set st (slotKey pfx ((model.length + off) % U32)) w)) := by
    unfold push_back
    rw [hI.lenOk]
    show (match set_at_unchecked C pfx st model.length x with
      | (Except.error e, st1) => (Except.error e, st1)
      | (Except.ok _, st1) => (Except.ok (), set_len pfx ((model.length + 1) % U32) st1)) = _
    rw [set_at_unchecked_inv hI.offOk model.length x hser]
  rw [hstep, Nat.mod_eq_of_lt hlen]
  exact ⟨rfl, inv_extend_back hI hser hlen⟩

theorem inv_extend_front {T : Type} {C : Codec T}
    {pfx : List Nat} {st : Stor} {off : Nat} {model : List T}
    (hI : Inv C pfx st off model) {x : T} {w : List Nat} (hser : C.ser x = .ok w)
    (hlen : model.length + 1 < U32) :
    Inv C pfx
      (set_len pfx (model.length + 1)
        (Stor.set (set_off pfx ((off + (U32 - 1)) % U32) st)
          (slotKey pfx ((0 + (off + (U32 - 1)) % U32 % U32) % U32)) w))
      ((off + (U32 - 1)) % U32) (x :: model) := by
  have hU : 0 < U32 := by simp [U32]
  have hoff2 : (off + (U32 - 1)) % U32 < U32 := Nat.mod_lt _ hU
  refine ⟨hoff2, by simpa using hlen, ?_, ?_, ?_⟩
  · rw [get_len_set_len, Nat.mod_eq_of_lt (by simpa using hlen)]
    simp
  · rw [get_off_set_len, get_off_set_slot, get_off_set_off, Nat.mod_mod_of_dvd]
    exact dvd_refl U32
  · intro j hj
    simp only [List.length_cons] at hj
    have hframeLen : ∀ p, (set_len pfx (model.length + 1)
        (Stor.set (set_off pfx ((off + (U32 - 1)) % U32) st)
          (slotKey pfx ((0 + (off + (U32 - 1)) % U32 % U32) % U32)) w)).get (slotKey pfx p) =
        (Stor.set (set_off pfx ((off + (U32 - 1)) % U32) st)
          (slotKey pfx ((0 + (off + (U32 - 1)) % U32 % U32) % U32)) w).get (slotKey pfx p) := by
      intro p
      unfold set_len setU32
      rw [show pfx ++ lenSuffix = lenKey pfx from rfl,
        Stor.get_set_ne _ _ _ (lenKey_ne_slotKey pfx _).symm]
    match j, hj with
    | 0, _ =>
      refine ⟨w, ?_, hser⟩
      rw [hframeLen]
      have : (0 + (off + (U32 - 1)) % U32) % U32 =
          (0 + (off + (U32 - 1)) % U32 % U32) % U32 := by
        rw [Nat.mod_mod_of_dvd _ (dvd_refl U32)]
      rw [this, Stor.get_set_self]
    | j2 + 1, hj =>
      have hj2 : j2 < model.length := by omega
      obtain ⟨v, hv, hs⟩ := hI.slots j2 hj2
      have hkeyeq : (j2 + 1 + (off + (U32 - 1)) % U32) % U32 = (j2 + off) % U32 :=
        front_key_eq off j2
      have hkeyne : slotKey pfx ((j2 + 1 + (off + (U32 - 1)) % U32) % U32) ≠
          slotKey pfx ((0 + (off + (U32 - 1)) % U32 % U32) % U32) := by
        rw [Ne, slotKey_eq_iff]
        exact front_key_ne off j2 (by have := hI.lenLt; omega)
      refine ⟨v, ?_, ?_⟩
      · rw [hframeLen, Stor.get_set_ne _ _ _ hkeyne]
        unfold set_off setU32
        rw [show pfx ++ offSuffix = offKey pfx from rfl,
          Stor.get_set_ne _ _ _ (offKey_ne_slotKey pfx _).symm, hkeyeq]
        exact hv
      · simpa using hs

theorem push_front_spec {T : Type} {C : Codec T} (hC : C.RoundTrip)
    {pfx : List Nat} {st : Stor} {off : Nat} {model : List T}
    (hI : Inv C pfx st off model) (x : T) (hlen : model.length + 1 < U32) :
    (push_front C pfx st x).1 = .ok () ∧
      Inv C pfx (push_front C pfx st x).2 ((off + (U32 - 1)) % U32) (x :: model) := by
  obtain ⟨w, hser, _⟩ := Codec.ser_ok_of_roundTrip hC x
  have hU : 0 < U32 := by simp [U32]
  have hoff2 : (off + (U32 - 1)) % U32 < U32 := Nat.mod_lt _ hU
  have hoff1 : get_off pfx (set_off pfx ((off + (U32 - 1)) % U32) st) =
      .ok ((off + (U32 - 1)) % U32 % U32) := get_off_set_off pfx _ st
  have hstep : push_front C pfx st x =
      (.ok (), set_len pfx ((model.length + 1) % U32)
        (Stor.set (set_off pfx ((off + (U32 - 1)) % U32) st)
          (slotKey pfx ((0 + (off + (U32 - 1)) % U32 % U32) % U32)) w)) := by
    unfold push_front
    rw [hI.offOk, hI.lenOk]
    show (match set_at_unchecked C pfx (set_off pfx ((off + (U32 - 1)) % U32) st) 0 x with
      | (Except.error e, st2) => (Except.error e, st2)
      | (Except.ok _, st2) => (Except.ok (), set_len pfx ((model.length + 1) % U32) st2)) = _
    rw [set_at_unchecked_inv hoff1 0 x hser]
  rw [hstep, Nat.mod_eq_of_lt hlen]
  exact ⟨rfl, inv_extend_front hI hser hlen⟩

theorem collectN_inv {T : Type} {C : Codec T} (hC : C.RoundTrip)
    {pfx : List Nat} {st : Stor} {off : Nat} {model : List T}
    (hI : Inv C pfx st off model) :
    ∀ d i, i + d = model.length →
      collectN C pfx st d ⟨i, model.length⟩ = .ok (model.drop i) := by
  intro d
  induction d with
  | zero =>
    intro i hi
    rw [show i = model.length from by omega, List.drop_length]
    rfl
  | succ d ih =>
    intro i hi
    have hilt : i < model.length := by omega
    unfold collectN iterNext
    rw [if_neg (by simp; omega)]
    show (match (some (get_at C pfx st i), (⟨i + 1, model.length⟩ : Iter)) with
      | (none, _) => Except.ok []
      | (some (Except.error e), _) => Except.error e
      | (some (Except.ok x), it1) =>
        (collectN C pfx st d it1).map (fun l => x :: l)) = _
    rw [get_at_inv hC hI hilt]
    show (collectN C pfx st d ⟨i + 1, model.length⟩).map (fun l => model[i] :: l) = _
    rw [ih (i + 1) (by omega)]
    show Except.ok (model[i] :: model.drop (i + 1)) = _
    rw [← List.drop_eq_getElem_cons hilt]


theorem iterAll_inv {T : Type} {C : Codec T} (hC : C.RoundTrip)
    {pfx : List Nat} {st : Stor} {off : Nat} {model : List T}
    (hI : Inv C pfx st off model) :
    iterAll C pfx st = .ok model := by
  unfold iterAll iter
  rw [hI.lenOk]
  show collectN C pfx st (model.length - 0) ⟨0, model.length⟩ = _
  rw [Nat.sub_zero]
  exact collectN_inv hC hI model.length 0 (by omega)

theorem shiftTailAux_spec {T : Type} {C : Codec T} (hC : C.RoundTrip) {pfx : List Nat} :
    ∀ (c i : Nat) (st : Stor) (off : Nat) (B : List T),
      Inv C pfx st off B → i + c + 1 ≤ B.length →
      (shiftTailAux C pfx i c st).1 = .ok () ∧
        Inv C pfx (shiftTailAux C pfx i c st).2 off (tailShiftList B i c) := by
  intro c
  induction c with
  | zero =>
    intro i st off B hI _
    exact ⟨rfl, hI⟩
  | succ c ih =>
    intro i st off B hI hb
    have hi1 : i + 1 < B.length := by omega
    obtain ⟨w1, hw1, hser1⟩ := hI.slots (i + 1) hi1
    have hstep : shiftTailAux C pfx i (c + 1) st =
        shiftTailAux C pfx (i + 1) c (Stor.set st (slotKey pfx ((i + off) % U32)) w1) := by
      conv_lhs => unfold shiftTailAux
      rw [get_at_unchecked_inv hC hI hi1]
      show (match set_at_unchecked C pfx st i (B[i + 1]) with
        | (Except.error e, st1) => (Except.error e, st1)
        | (Except.ok _, st1) => shiftTailAux C pfx (i + 1) c st1) = _
      rw [set_at_unchecked_inv hI.offOk i (B[i + 1]) hser1]
    have hI1 : Inv C pfx (Stor.set st (slotKey pfx ((i + off) % U32)) w1) off
        (B.set i B[i + 1]) := inv_set_slot hI (by omega) hser1
    have hrec := ih (i + 1) _ off (B.set i B[i + 1]) hI1 (by rw [List.length_set]; omega)
    have hTS : tailShiftList B i (c + 1) = tailShiftList (B.set i B[i + 1]) (i + 1) c := by
      conv_lhs => unfold tailShiftList
      rw [List.getElem?_eq_getElem hi1]
    rw [hstep, hTS]
    exact hrec

theorem shiftHeadAux_spec {T : Type} {C : Codec T} (hC : C.RoundTrip) {pfx : List Nat} :
    ∀ (k : Nat) (st : Stor) (off : Nat) (B : List T),
      Inv C pfx st off B → k < B.length →
      (shiftHeadAux C pfx k st).1 = .ok () ∧
        Inv C pfx (shiftHeadAux C pfx k st).2 off (headShiftList B k) := by
  intro k
  induction k with
  | zero =>
    intro st off B hI _
    exact ⟨rfl, hI⟩
  | succ k ih =>
    intro st off B hI hb
    have hk : k < B.length := by omega
    obtain ⟨w1, hw1, hser1⟩ := hI.slots k hk
    have hstep : shiftHeadAux C pfx (k + 1) st =
        shiftHeadAux C pfx k (Stor.set st (slotKey pfx ((k + 1 + off) % U32)) w1) := by
      conv_lhs => unfold shiftHeadAux
      rw [get_at_unchecked_inv hC hI hk]
      show (match set_at_unchecked C pfx st (k + 1) (B[k]) with
        | (Except.error e, st1) => (Except.error e, st1)
        | (Except.ok _, st1) => shiftHeadAux C pfx k st1) = _
      rw [set_at_unchecked_inv hI.offOk (k + 1) (B[k]) hser1]
    have hI1 : Inv C pfx (Stor.set st (slotKey pfx ((k + 1 + off) % U32)) w1) off
        (B.set (k + 1) B[k]) := inv_set_slot hI (by omega) hser1
    have hrec := ih _ off (B.set (k + 1) B[k]) hI1 (by rw [List.length_set]; omega)
    have hHS : headShiftList B (k + 1) = headShiftList (B.set (k + 1) B[k]) k := by
      conv_lhs => unfold headShiftList
      rw [List.getElem?_eq_getElem hk]
    rw [hstep, hHS]
    exact hrec

theorem adv_key_eq (off j : Nat) : (j + (off + 1) % U32) % U32 = (j + 1 + off) % U32 := by
  simp only [U32]
  omega

theorem inv_shift_off {T : Type} {C : Codec T} {pfx : List Nat} {st : Stor}
    {off : Nat} {B : List T} (hI : Inv C pfx st off B) (_hne : B.length ≠ 0) :
    Inv C pfx (set_len pfx (B.length - 1) (set_off pfx ((off + 1) % U32) st))
      ((off + 1) % U32) (B.drop 1) := by
  have hU : 0 < U32 := by simp [U32]
  refine ⟨Nat.mod_lt _ hU, ?_, ?_, ?_, ?_⟩
  · rw [List.length_drop]
    have := hI.lenLt
    omega
  · rw [get_len_set_len, List.length_drop,
      Nat.mod_eq_of_lt (by have := hI.lenLt; omega)]
  · rw [get_off_set_len, get_off_set_off, Nat.mod_mod_of_dvd _ (dvd_refl U32)]
  · intro j hj
    rw [List.length_drop] at hj
    obtain ⟨v, hv, hs⟩ := hI.slots (j + 1) (by omega)
    refine ⟨v, ?_, ?_⟩
    · unfold set_len set_off setU32
      rw [show pfx ++ lenSuffix = lenKey pfx from rfl,
        show pfx ++ offSuffix = offKey pfx from rfl,
        Stor.get_set_ne _ _ _ (lenKey_ne_slotKey pfx _).symm,
        Stor.get_set_ne _ _ _ (offKey_ne_slotKey pfx _).symm, adv_key_eq]
      exact hv
    · rw [List.getElem_drop]
      simp only [Nat.add_comm 1 j]
      exact hs

theorem remove_spec {T : Type} {C : Codec T} (hC : C.RoundTrip)
    {pfx : List Nat} {st : Stor} {off : Nat} {model : List T}
    (hI : Inv C pfx st off model) {pos : Nat} (hpos : pos < model.length) :
    (remove C pfx st pos).1 = .ok model[pos] ∧
      Inv C pfx (remove C pfx st pos).2
        (if model.length - pos < pos then off else (off + 1) % U32)
        (model.eraseIdx pos) := by
  have hred : remove C pfx st pos =
      (if pos ≥ model.length then
        (.error (.genericErr "DequeStorage access out of bounds"), st)
      else if model.length - pos < pos then
        match shiftTailAux C pfx pos (model.length - 1 - pos) st with
        | (.error e, st1) => (.error e, st1)
        | (.ok _, st1) =>
          (get_at_unchecked C pfx st pos, set_len pfx (model.length - 1) st1)
      else
        match shiftHeadAux C pfx pos st with
        | (.error e, st1) => (.error e, st1)
        | (.ok _, st1) =>
          (get_at_unchecked C pfx st pos,
            set_len pfx (model.length - 1) (set_off pfx ((off + 1) % U32) st1))) := by
    unfold remove
    rw [hI.offOk, hI.lenOk]
  rw [hred, if_neg (by omega)]
  by_cases hdir : model.length - pos < pos
  · rw [if_pos hdir, if_pos hdir]
    obtain ⟨hok, hI1⟩ :=
      shiftTailAux_spec hC (model.length - 1 - pos) pos st off model hI (by omega)
    rcases hsp : shiftTailAux C pfx pos (model.length - 1 - pos) st with ⟨r1, st1⟩
    rw [hsp] at hok hI1
    have hr1 : r1 = .ok () := hok
    subst hr1
    refine ⟨get_at_unchecked_inv hC hI hpos, ?_⟩
    show Inv C pfx (set_len pfx (model.length - 1) st1) off (model.eraseIdx pos)
    have h2 := inv_set_len hI1
      (m := model.length - 1) (by rw [tailShiftList_length]; omega)
    rwa [tailShift_take_eq_eraseIdx model pos hpos] at h2
  · rw [if_neg hdir, if_neg hdir]
    obtain ⟨hok, hI1⟩ := shiftHeadAux_spec hC pos st off model hI hpos
    rcases hsp : shiftHeadAux C pfx pos st with ⟨r1, st1⟩
    rw [hsp] at hok hI1
    have hr1 : r1 = .ok () := hok
    subst hr1
    refine ⟨get_at_unchecked_inv hC hI hpos, ?_⟩
    show Inv C pfx (set_len pfx (model.length - 1) (set_off pfx ((off + 1) % U32) st1))
      ((off + 1) % U32) (model.eraseIdx pos)
    have h2 := inv_shift_off hI1 (by rw [headShiftList_length]; omega)
    rw [headShiftList_length] at h2
    rwa [headShift_drop_eq_eraseIdx model pos hpos] at h2

end DequeStore

namespace AppendStore

theorem lenKey_ne_slotKey_app (pfx : List Nat) (p : Nat) : lenKey pfx ≠ slotKey pfx p :=
  DequeStore.lenKey_ne_slotKey pfx p

theorem slotKey_eq_iff_app (pfx : List Nat) {p q : Nat} :
    slotKey pfx p = slotKey pfx q ↔ p % U32 = q % U32 :=
  DequeStore.slotKey_eq_iff pfx

theorem get_len_set_len_app (pfx : List Nat) (n : Nat) (st : Stor) :
    get_len pfx (set_len pfx n st) = .ok (n % U32) := by
  unfold get_len set_len
  rw [Stor.get_set_self]
  exact fromBe4_toBe n

theorem get_len_set_slot_app (pfx : List Nat) (p : Nat) (v : List Nat) (st : Stor) :
    get_len pfx (Stor.set st (slotKey pfx p) v) = get_len pfx st := by
  unfold get_len
  rw [show pfx ++ DequeStore.lenSuffix = lenKey pfx from rfl,
    Stor.get_set_ne _ _ _ (lenKey_ne_slotKey_app pfx p)]

/-- Representation invariant of an append-store state: the persisted length
decodes to `model.length` and logical position `i` is stored, serialised, at
slot `i`. -/
structure Inv {T : Type} (C : Codec T) (pfx : List Nat) (st : Stor)
    (model : List T) : Prop where
  lenLt : model.length < U32
  lenOk : get_len pfx st = .ok model.length
  slots : ∀ i : Nat, (h : i < model.length) →
    ∃ v, st.get (slotKey pfx i) = some v ∧ C.ser model[i] = .ok v

theorem get_at_unchecked_inv_app {T : Type} {C : Codec T} (hC : C.RoundTrip)
    {pfx : List Nat} {st : Stor} {model : List T}
    (hI : Inv C pfx st model) {i : Nat} (h : i < model.length) :
    get_at_unchecked C pfx st i = .ok model[i] := by
  obtain ⟨v, hv, hser⟩ := hI.slots i h
  have hbind := hC model[i]
  rw [hser] at hbind
  unfold get_at_unchecked load_impl
  rw [show pfx ++ toBe i = slotKey pfx i from rfl, hv]
  exact hbind

theorem get_at_inv_app {T : Type} {C : Codec T} (hC : C.RoundTrip)
    {pfx : List Nat} {st : Stor} {model : List T}
    (hI : Inv C pfx st model) {i : Nat} (h : i < model.length) :
    get_at C pfx st i = .ok model[i] := by
  unfold get_at
  rw [hI.lenOk]
  show (if i > model.length then _ else get_at_unchecked C pfx st i) = _
  rw [if_neg (by omega)]
  exact get_at_unchecked_inv_app hC hI h

theorem set_at_unchecked_eq {T : Type} {C : Codec T}
    {pfx : List Nat} (st : Stor) (i : Nat) (x : T) {w : List Nat}
    (hser : C.ser x = .ok w) :
    set_at_unchecked C pfx st i x = (.ok (), Stor.set st (slotKey pfx i) w) := by
  unfold set_at_unchecked save_impl
  rw [hser]
  rfl

theorem inv_set_slot_app {T : Type} {C : Codec T}
    {pfx : List Nat} {st : Stor} {model : List T}
    (hI : Inv C pfx st model) {i : Nat} (h : i < model.length) {x : T}
    {w : List Nat} (hser : C.ser x = .ok w) :
    Inv C pfx (Stor.set st (slotKey pfx i) w) (model.set i x) := by
  refine ⟨by rw [List.length_set]; exact hI.lenLt, ?_, ?_⟩
  · rw [get_len_set_slot_app, List.length_set]
    exact hI.lenOk
  · intro j hj
    rw [List.length_set] at hj
    by_cases hij : j = i
    · subst hij
      refine ⟨w, Stor.get_set_self _ _ _, ?_⟩
      rw [List.getElem_set, if_pos rfl]
      exact hser
    · have hkey : slotKey pfx j ≠ slotKey pfx i := by
        rw [Ne, slotKey_eq_iff_app]
        have h1 : j < U32 := lt_trans hj hI.lenLt
        have h2 : i < U32 := lt_trans h hI.lenLt
        simp only [U32] at h1 h2 ⊢
        omega
      obtain ⟨v, hv, hs⟩ := hI.slots j hj
      refine ⟨v, ?_, ?_⟩
      · rw [Stor.get_set_ne _ _ _ hkey]
        exact hv
      · rw [List.getElem_set, if_neg (by omega)]
        exact hs

theorem inv_set_len_app {T : Type} {C : Codec T}
    {pfx : List Nat} {st : Stor} {model : List T}
    (hI : Inv C pfx st model) {m : Nat} (hm : m ≤ model.length) :
    Inv C pfx (set_len pfx m st) (model.take m) := by
  have hmlt : m < U32 := lt_of_le_of_lt hm hI.lenLt
  have hlen : (model.take m).length = m := by
    rw [List.length_take]
    omega
  refine ⟨by rw [hlen]; exact hmlt, ?_, ?_⟩
  · rw [get_len_set_len_app, hlen, Nat.mod_eq_of_lt hmlt]
  · intro j hj
    rw [hlen] at hj
    obtain ⟨v, hv, hs⟩ := hI.slots j (lt_of_lt_of_le hj hm)
    refine ⟨v, ?_, ?_⟩
    · unfold set_len
      rw [show pfx ++ DequeStore.lenSuffix = lenKey pfx from rfl,
        Stor.get_set_ne _ _ _ (lenKey_ne_slotKey_app pfx _).symm]
      exact hv
    · rw [List.getElem_take]
      exact hs

theorem inv_extend {T : Type} {C : Codec T}
    {pfx : List Nat} {st : Stor} {model : List T}
    (hI : Inv C pfx st model) {x : T} {w : List Nat} (hser : C.ser x = .ok w)
    (hlen : model.length + 1 < U32) :
    Inv C pfx (set_len pfx (model.length + 1) (Stor.set st (slotKey pfx model.length) w))
      (model ++ [x]) := by
  have hlen2 : (model ++ [x]).length = model.length + 1 := by simp
  refine ⟨by rw [hlen2]; exact hlen, ?_, ?_⟩
  · rw [get_len_set_len_app, hlen2, Nat.mod_eq_of_lt hlen]
  · intro j hj
    rw [hlen2] at hj
    by_cases hje : j = model.length
    · subst hje
      refine ⟨w, ?_, ?_⟩
      · unfold set_len
        rw [show pfx ++ DequeStore.lenSuffix = lenKey pfx from rfl,
          Stor.get_set_ne _ _ _ (lenKey_ne_slotKey_app pfx _).symm, Stor.get_set_self]
      · rw [show (model ++ [x])[model.length] = x from by
          have := List.getElem?_concat_length model x
          rw [List.getElem?_eq_getElem (by omega)] at this
          exact Option.some.inj this]
        exact hser
    · have hjlt : j < model.length := by omega
      obtain ⟨v, hv, hs⟩ := hI.slots j hjlt
      have hkey : slotKey pfx j ≠ slotKey pfx model.length := by
        rw [Ne, slotKey_eq_iff_app]
        have h1 : j < U32 := lt_trans hjlt hI.lenLt
        have h2 := hI.lenLt
        simp only [U32] at h1 h2 ⊢
        omega
      refine ⟨v, ?_, ?_⟩
      · unfold set_len
        rw [show pfx ++ DequeStore.lenSuffix = lenKey pfx from rfl,
          Stor.get_set_ne _ _ _ (lenKey_ne_slotKey_app pfx _).symm,
          Stor.get_set_ne _ _ _ hkey]
        exact hv
      · rw [List.getElem_append, dif_pos hjlt]
        exact hs

theorem push_spec {T : Type} {C : Codec T} (hC : C.RoundTrip)
    {pfx : List Nat} {st : Stor} {model : List T}
    (hI : Inv C pfx st model) (x : T) (hlen : model.length + 1 < U32) :
    (push C pfx st x).1 = .ok () ∧ Inv C pfx (push C pfx st x).2 (model ++ [x]) := by
  obtain ⟨w, hser, _⟩ := Codec.ser_ok_of_roundTrip hC x
  have hstep : push C pfx st x =
      (.ok (), set_len pfx ((model.length + 1) % U32)
        (Stor.set st (slotKey pfx model.length) w)) := by
    unfold push
    rw [hI.lenOk]
    show (match set_at_unchecked C pfx st model.length x with
      | (Except.error e, st1) => (Except.error e, st1)
      | (Except.ok _, st1) => (Except.ok (), set_len pfx ((model.length + 1) % U32) st1)) = _
    rw [set_at_unchecked_eq st model.length x hser]
  rw [hstep, Nat.mod_eq_of_lt hlen]
  exact ⟨rfl, inv_extend hI hser hlen⟩

theorem collectN_inv_app {T : Type} {C : Codec T} (hC : C.RoundTrip)
    {pfx : List Nat} {st : Stor} {model : List T}
    (hI : Inv C pfx st model) :
    ∀ d i, i + d = model.length →
      collectN C pfx st d ⟨i, model.length⟩ = .ok (model.drop i) := by
  intro d
  induction d with
  | zero =>
    intro i hi
    rw [show i = model.length from by omega, List.drop_length]
    rfl
  | succ d ih =>
    intro i hi
    have hilt : i < model.length := by omega
    unfold collectN iterNext
    rw [if_neg (by simp; omega)]
    show (match (some (get_at C pfx st i), (⟨i + 1, model.length⟩ : DequeStore.Iter)) with
      | (none, _) => Except.ok []
      | (some (Except.error e), _) => Except.error e
      | (some (Except.ok x), it1) =>
        (collectN C pfx st d it1).map (fun l => x :: l)) = _
    rw [get_at_inv_app hC hI hilt]
    show (collectN C pfx st d ⟨i + 1, model.length⟩).map (fun l => model[i] :: l) = _
    rw [ih (i + 1) (by omega)]
    show Except.ok (model[i] :: model.drop (i + 1)) = _
    rw [← List.drop_eq_getElem_cons hilt]

theorem iterAll_inv_app {T : Type} {C : Codec T} (hC : C.RoundTrip)
    {pfx : List Nat} {st : Stor} {model : List T}
    (hI : Inv C pfx st model) :
    iterAll C pfx st = .ok model := by
  unfold iterAll iter
  rw [hI.lenOk]
  show collectN C pfx st (model.length - 0) ⟨0, model.length⟩ = _
  rw [Nat.sub_zero]
  exact collectN_inv_app hC hI model.length 0 (by omega)

theorem shiftTailAux_spec_app {T : Type} {C : Codec T} (hC : C.RoundTrip) {pfx : List Nat} :
    ∀ (c i : Nat) (st : Stor) (B : List T),
      Inv C pfx st B → i + c + 1 ≤ B.length →
      (shiftTailAux C pfx i c st).1 = .ok () ∧
        Inv C pfx (shiftTailAux C pfx i c st).2 (tailShiftList B i c) := by
  intro c
  induction c with
  | zero =>
    intro i st B hI _
    exact ⟨rfl, hI⟩
  | succ c ih =>
    intro i st B hI hb
    have hi1 : i + 1 < B.length := by omega
    obtain ⟨w1, hw1, hser1⟩ := hI.slots (i + 1) hi1
    have hstep : shiftTailAux C pfx i (c + 1) st =
        shiftTailAux C pfx (i + 1) c (Stor.set st (slotKey pfx i) w1) := by
      conv_lhs => unfold shiftTailAux
      rw [get_at_unchecked_inv_app hC hI hi1]
      show (match set_at_unchecked C pfx st i (B[i + 1]) with
        | (Except.error e, st1) => (Except.error e, st1)
        | (Except.ok _, st1) => shiftTailAux C pfx (i + 1) c st1) = _
      rw [set_at_unchecked_eq st i (B[i + 1]) hser1]
    have hI1 : Inv C pfx (Stor.set st (slotKey pfx i) w1) (B.set i B[i + 1]) :=
      inv_set_slot_app hI (by omega) hser1
    have hrec := ih (i + 1) _ (B.set i B[i + 1]) hI1 (by rw [List.length_set]; omega)
    have hTS : tailShiftList B i (c + 1) = tailShiftList (B.set i B[i + 1]) (i + 1) c := by
      conv_lhs => unfold tailShiftList
      rw [List.getElem?_eq_getElem hi1]
    rw [hstep, hTS]
    exact hrec

theorem remove_spec_app {T : Type} {C : Codec T} (hC : C.RoundTrip)
    {pfx : List Nat} {st : Stor} {model : List T}
    (hI : Inv C pfx st model) {pos : Nat} (hpos : pos < model.length) :
    (remove C pfx st pos).1 = .ok model[pos] ∧
      Inv C pfx (remove C pfx st pos).2 (model.eraseIdx pos) := by
  have hred : remove C pfx st pos =
      (if pos ≥ model.length then
        (.error (.genericErr "DequeStorage access out of bounds"), st)
      else
        match shiftTailAux C pfx pos (model.length - 1 - pos) st with
        | (.error e, st1) => (.error e, st1)
        | (.ok _, st1) =>
          (get_at_unchecked C pfx st pos, set_len pfx (model.length - 1) st1)) := by
    unfold remove
    rw [hI.lenOk]
  rw [hred, if_neg (by omega)]
  obtain ⟨hok, hI1⟩ :=
    shiftTailAux_spec_app hC (model.length - 1 - pos) pos st model hI (by omega)
  rcases hsp : shiftTailAux C pfx pos (model.length - 1 - pos) st with ⟨r1, st1⟩
  rw [hsp] at hok hI1
  have hr1 : r1 = .ok () := hok
  subst hr1
  refine ⟨get_at_unchecked_inv_app hC hI hpos, ?_⟩
  show Inv C pfx (set_len pfx (model.length - 1) st1) (model.eraseIdx pos)
  have h2 := inv_set_len_app hI1
    (m := model.length - 1) (by rw [tailShiftList_length]; omega)
  rwa [tailShift_take_eq_eraseIdx model pos hpos] at h2

end AppendStore

namespace DequeStore

theorem skipOne_iterate {T : Type} (C : Codec T) (pfx : List Nat) (st : Stor) :
    ∀ (n a b : Nat), a ≤ b →
      (skipOne C pfx st)^[n] ⟨a, b⟩ = ⟨min (a + n) b, b⟩ := by
  intro n
  induction n with
  | zero =>
    intro a b hab
    rw [Function.iterate_zero_apply]
    rw [show min (a + 0) b = a from by omega]
  | succ n ih =>
    intro a b hab
    rw [Function.iterate_succ_apply]
    by_cases h : a ≥ b
    · have hstep : skipOne C pfx st ⟨a, b⟩ = ⟨a, b⟩ := by
        unfold skipOne iterNext
        rw [if_pos h]
      rw [hstep, ih a b hab]
      rw [show min (a + n) b = min (a + (n + 1)) b from by omega]
    · have hstep : skipOne C pfx st ⟨a, b⟩ = ⟨a + 1, b⟩ := by
        unfold skipOne iterNext
        rw [if_neg h]
      rw [hstep, ih (a + 1) b (by omega)]
      rw [show min (a + 1 + n) b = min (a + (n + 1)) b from by omega]

theorem collectN_exhausted {T : Type} (C : Codec T) (pfx : List Nat) (st : Stor) :
    ∀ (k : Nat) (it : Iter), it.start ≥ it.stop → collectN C pfx st k it = .ok [] := by
  intro k it h
  cases k with
  | zero => rfl
  | succ k =>
    unfold collectN iterNext
    rw [if_pos h]

theorem skipTakeCollect_eq {T : Type} (C : Codec T) (pfx : List Nat) (st : Stor)
    (n k : Nat) (it : Iter) (hn : it.start + n ≤ U32) (hab : it.start ≤ it.stop) :
    skipTakeCollect C pfx st n k it =
      collectN C pfx st k ⟨min (it.start + n) it.stop, it.stop⟩ := by
  rcases it with ⟨a, b⟩
  simp only at hn hab
  match n, k with
  | 0, k =>
    rw [show min (a + 0) b = a from by omega]
    rfl
  | n1 + 1, 0 =>
    show Except.ok [] = collectN C pfx st 0 _
    rfl
  | n1 + 1, k1 + 1 =>
    have hn1 : n1 % U32 = n1 := Nat.mod_eq_of_lt (by omega)
    have hcur : min (a + n1 % U32) (U32 - 1) = a + n1 := by
      rw [hn1]
      have : 0 < U32 := by simp [U32]
      omega
    show (match iterNth C pfx st ⟨a, b⟩ n1 with
      | (none, _) => Except.ok []
      | (some _, it1) =>
        match iterNext C pfx st it1 with
        | (none, _) => Except.ok []
        | (some (Except.error e), _) => Except.error e
        | (some (Except.ok x), it2) => (collectN C pfx st k1 it2).map (fun l => x :: l)) = _
    unfold iterNth
    rw [show (⟨min ((⟨a, b⟩ : Iter).start + n1 % U32) (U32 - 1), (⟨a, b⟩ : Iter).stop⟩ : Iter)
      = ⟨a + n1, b⟩ from by rw [show (⟨a, b⟩ : Iter).start = a from rfl]; rw [hcur]]
    by_cases hend : a + n1 ≥ b
    · have h1 : iterNext (T := T) C pfx st ⟨a + n1, b⟩ = (none, ⟨a + n1, b⟩) := by
        unfold iterNext
        rw [if_pos hend]
      rw [h1]
      have h2 : min (a + (n1 + 1)) b = b := by omega
      rw [h2]
      show Except.ok [] = collectN C pfx st (k1 + 1) ⟨b, b⟩
      rw [collectN_exhausted C pfx st (k1 + 1) ⟨b, b⟩ (Nat.le_refl b)]
    · have h1 : iterNext (T := T) C pfx st ⟨a + n1, b⟩ =
          (some (get_at C pfx st (a + n1)), ⟨a + n1 + 1, b⟩) := by
        unfold iterNext
        rw [if_neg hend]
      rw [h1]
      have h2 : min (a + (n1 + 1)) b = a + n1 + 1 := by omega
      rw [h2]
      show (match iterNext C pfx st ⟨a + n1 + 1, b⟩ with
        | (none, _) => Except.ok []
        | (some (Except.error e), _) => Except.error e
        | (some (Except.ok x), it2) => (collectN C pfx st k1 it2).map (fun l => x :: l)) = _
      conv_rhs => unfold collectN

theorem paging_eq_pagingSpec {T : Type} (C : Codec T) (pfx : List Nat) (st : Stor)
    (p s : Nat) (hps : p * s ≤ U32) :
    paging C pfx st p s = pagingSpec C pfx st p s := by
  unfold paging pagingSpec iter
  cases hlen : get_len pfx st with
  | error e => rfl
  | ok len =>
    show skipTakeCollect C pfx st (p * s) s ⟨0, len⟩ =
      collectN C pfx st s ((skipOne C pfx st)^[p * s] ⟨0, len⟩)
    rw [skipOne_iterate C pfx st (p * s) 0 len (by omega),
      skipTakeCollect_eq C pfx st (p * s) s ⟨0, len⟩ (by simpa using hps) (by simp)]

end DequeStore

namespace AppendStore

theorem skipOne_iterate_app {T : Type} (C : Codec T) (pfx : List Nat) (st : Stor) :
    ∀ (n a b : Nat), a ≤ b →
      (skipOne C pfx st)^[n] ⟨a, b⟩ = ⟨min (a + n) b, b⟩ := by
  intro n
  induction n with
  | zero =>
    intro a b hab
    rw [Function.iterate_zero_apply]
    rw [show min (a + 0) b = a from by omega]
  | succ n ih =>
    intro a b hab
    rw [Function.iterate_succ_apply]
    by_cases h : a ≥ b
    · have hstep : skipOne C pfx st ⟨a, b⟩ = ⟨a, b⟩ := by
        unfold skipOne iterNext
        rw [if_pos h]
      rw [hstep, ih a b hab]
      rw [show min (a + n) b = min (a + (n + 1)) b from by omega]
    · have hstep : skipOne C pfx st ⟨a, b⟩ = ⟨a + 1, b⟩ := by
        unfold skipOne iterNext
        rw [if_neg h]
      rw [hstep, ih (a + 1) b (by omega)]
      rw [show min (a + 1 + n) b = min (a + (n + 1)) b from by omega]

theorem collectN_exhausted_app {T : Type} (C : Codec T) (pfx : List Nat) (st : Stor) :
    ∀ (k : Nat) (it : DequeStore.Iter), it.start ≥ it.stop → collectN C pfx st k it = .ok [] := by
  intro k it h
  cases k with
  | zero => rfl
  | succ k =>
    unfold collectN iterNext
    rw [if_pos h]

theorem skipTakeCollect_eq_app {T : Type} (C : Codec T) (pfx : List Nat) (st : Stor)
    (n k : Nat) (it : DequeStore.Iter) (hn : it.start + n ≤ U32) (hab : it.start ≤ it.stop) :
    skipTakeCollect C pfx st n k it =
      collectN C pfx st k ⟨min (it.start + n) it.stop, it.stop⟩ := by
  rcases it with ⟨a, b⟩
  simp only at hn hab
  match n, k with
  | 0, k =>
    rw [show min (a + 0) b = a from by omega]
    rfl
  | n1 + 1, 0 =>
    show Except.ok [] = collectN C pfx st 0 _
    rfl
  | n1 + 1, k1 + 1 =>
    have hn1 : n1 % U32 = n1 := Nat.mod_eq_of_lt (by omega)
    have hcur : min (a + n1 % U32) (U32 - 1) = a + n1 := by
      rw [hn1]
      have : 0 < U32 := by simp [U32]
      omega
    show (match iterNth C pfx st ⟨a, b⟩ n1 with
      | (none, _) => Except.ok []
      | (some _, it1) =>
        match iterNext C pfx st it1 with
        | (none, _) => Except.ok []
        | (some (Except.error e), _) => Except.error e
        | (some (Except.ok x), it2) => (collectN C pfx st k1 it2).map (fun l => x :: l)) = _
    unfold iterNth
    rw [show (⟨min ((⟨a, b⟩ : DequeStore.Iter).start + n1 % U32) (U32 - 1),
      (⟨a, b⟩ : DequeStore.Iter).stop⟩ : DequeStore.Iter)
      = ⟨a + n1, b⟩ from by
        rw [show (⟨a, b⟩ : DequeStore.Iter).start = a from rfl]; rw [hcur]]
    by_cases hend : a + n1 ≥ b
    · have h1 : iterNext (T := T) C pfx st ⟨a + n1, b⟩ = (none, ⟨a + n1, b⟩) := by
        unfold iterNext
        rw [if_pos hend]
      rw [h1]
      have h2 : min (a + (n1 + 1)) b = b := by omega
      rw [h2]
      show Except.ok [] = collectN C pfx st (k1 + 1) ⟨b, b⟩
      rw [collectN_exhausted_app C pfx st (k1 + 1) ⟨b, b⟩ (Nat.le_refl b)]
    · have h1 : iterNext (T := T) C pfx st ⟨a + n1, b⟩ =
          (some (get_at C pfx st (a + n1)), ⟨a + n1 + 1, b⟩) := by
        unfold iterNext
        rw [if_neg hend]
      rw [h1]
      have h2 : min (a + (n1 + 1)) b = a + n1 + 1 := by omega
      rw [h2]
      show (match iterNext C pfx st ⟨a + n1 + 1, b⟩ with
        | (none, _) => Except.ok []
        | (some (Except.error e), _) => Except.error e
        | (some (Except.ok x), it2) => (collectN C pfx st k1 it2).map (fun l => x :: l)) = _
      conv_rhs => unfold collectN

theorem paging_eq_pagingSpec_app {T : Type} (C : Codec T) (pfx : List Nat) (st : Stor)
    (p s : Nat) (hps : p * s ≤ U32) :
    paging C pfx st p s = pagingSpec C pfx st p s := by
  unfold paging pagingSpec iter
  cases hlen : get_len pfx st with
  | error e => rfl
  | ok len =>
    show skipTakeCollect C pfx st (p * s) s ⟨0, len⟩ =
      collectN C pfx st s ((skipOne C pfx st)^[p * s] ⟨0, len⟩)
    rw [skipOne_iterate_app C pfx st (p * s) 0 len (by omega),
      skipTakeCollect_eq_app C pfx st (p * s) s ⟨0, len⟩ (by simpa using hps) (by simp)]

end AppendStore

/-! Push-sequence machinery for the deque ordering property. -/

theorem modelOps_length {T : Type} :
    ∀ (ops : List (DOp T)) (m : List T),
      (modelOps ops m).length = m.length + ops.length := by
  intro ops
  induction ops with
  | nil => intro m; rfl
  | cons op ops ih =>
    intro m
    cases op with
    | pushBack x =>
      show (modelOps ops (m ++ [x])).length = _
      rw [ih]
      simp
      omega
    | pushFront x =>
      show (modelOps ops (x :: m)).length = _
      rw [ih]
      simp
      omega

theorem initStor_inv {T : Type} (C : Codec T) (pfx : List Nat) (o : Nat) :
    DequeStore.Inv C pfx (initStor pfx o) (o % U32) [] := by
  refine ⟨Nat.mod_lt _ (by simp [U32]), by simp [U32], ?_, ?_, ?_⟩
  · unfold DequeStore.get_len DequeStore.getU32 initStor
    rw [show pfx ++ DequeStore.lenSuffix = DequeStore.lenKey pfx from rfl,
      Stor.get_set_ne _ _ _ (DequeStore.lenKey_ne_offKey pfx)]
    rfl
  · unfold DequeStore.get_off DequeStore.getU32 initStor
    rw [show pfx ++ DequeStore.offSuffix = DequeStore.offKey pfx from rfl,
      Stor.get_set_self]
    exact fromBe4_toBe o
  · intro i hi
    exact absurd hi (by simp)

theorem applyOps_inv {T : Type} {C : Codec T} (hC : C.RoundTrip) (pfx : List Nat) :
    ∀ (ops : List (DOp T)) (st : Stor) (off : Nat) (model : List T),
      DequeStore.Inv C pfx st off model → model.length + ops.length < U32 →
      ∃ off2, DequeStore.Inv C pfx (applyOps C pfx ops st) off2 (modelOps ops model) := by
  intro ops
  induction ops with
  | nil =>
    intro st off model hI _
    exact ⟨off, hI⟩
  | cons op ops ih =>
    intro st off model hI hlen
    cases op with
    | pushBack x =>
      obtain ⟨_, hI2⟩ := DequeStore.push_back_spec hC hI x (by simp at hlen; omega)
      have := ih (DequeStore.push_back C pfx st x).2 off (model ++ [x]) hI2
        (by simp at hlen ⊢; omega)
      exact this
    | pushFront x =>
      obtain ⟨_, hI2⟩ := DequeStore.push_front_spec hC hI x (by simp at hlen; omega)
      have := ih (DequeStore.push_front C pfx st x).2 ((off + (U32 - 1)) % U32)
        (x :: model) hI2 (by simp at hlen ⊢; omega)
      exact this

theorem pushSeq_iterAll {T : Type} {C : Codec T} (hC : C.RoundTrip) (pfx : List Nat)
    (ops : List (DOp T)) (o : Nat) (hlen : ops.length < U32) :
    DequeStore.iterAll C pfx (applyOps C pfx ops (initStor pfx o)) =
      .ok (modelOps ops []) := by
  obtain ⟨off2, hI⟩ := applyOps_inv hC pfx ops (initStor pfx o) (o % U32) []
    (initStor_inv C pfx o) (by simpa using hlen)
  exact DequeStore.iterAll_inv hC hI

/-! Length evolution of a pure `push_back` sequence, valid even past the
`2^32` wrap of the length counter. -/

theorem push_back_counters {T : Type} {C : Codec T} (pfx : List Nat) (st : Stor)
    (x : T) {l o2 : Nat} {w : List Nat}
    (hlen : DequeStore.get_len pfx st = .ok l)
    (hoff : DequeStore.get_off pfx st = .ok o2)
    (hser : C.ser x = .ok w) :
    DequeStore.get_len pfx (DequeStore.push_back C pfx st x).2 = .ok ((l + 1) % U32) ∧
      DequeStore.get_off pfx (DequeStore.push_back C pfx st x).2 = .ok o2 := by
  have hstep : DequeStore.push_back C pfx st x =
      (.ok (), DequeStore.set_len pfx ((l + 1) % U32)
        (Stor.set st (DequeStore.slotKey pfx ((l + o2) % U32)) w)) := by
    unfold DequeStore.push_back
    rw [hlen]
    show (match DequeStore.set_at_unchecked C pfx st l x with
      | (Except.error e, st1) => (Except.error e, st1)
      | (Except.ok _, st1) => (Except.ok (), DequeStore.set_len pfx ((l + 1) % U32) st1)) = _
    rw [DequeStore.set_at_unchecked_inv hoff l x hser]
  rw [hstep]
  constructor
  · rw [DequeStore.get_len_set_len, Nat.mod_mod_of_dvd _ (dvd_refl U32)]
  · rw [DequeStore.get_off_set_len, DequeStore.get_off_set_slot]
    exact hoff

theorem replicate_push_back_len {T : Type} {C : Codec T} (pfx : List Nat) (x : T)
    {w : List Nat} (hser : C.ser x = .ok w) :
    ∀ (n : Nat) (st : Stor) (l o2 : Nat), l < U32 →
      DequeStore.get_len pfx st = .ok l →
      DequeStore.get_off pfx st = .ok o2 →
      DequeStore.get_len pfx
        (applyOps C pfx (List.replicate n (DOp.pushBack x)) st) = .ok ((l + n) % U32) := by
  intro n
  induction n with
  | zero =>
    intro st l o2 hl hlen _
    rw [List.replicate_zero]
    show DequeStore.get_len pfx st = _
    rw [hlen, Nat.add_zero, Nat.mod_eq_of_lt hl]
  | succ n ih =>
    intro st l o2 hl hlen hoff
    obtain ⟨hlen2, hoff2⟩ := push_back_counters pfx st x hlen hoff hser
    rw [List.replicate_succ]
    show DequeStore.get_len pfx
      (applyOps C pfx (List.replicate n (DOp.pushBack x))
        (DequeStore.push_back C pfx st x).2) = _
    rw [ih (DequeStore.push_back C pfx st x).2 ((l + 1) % U32) o2
      (Nat.mod_lt _ (by simp [U32])) hlen2 hoff2, Nat.mod_add_mod]
    rw [show l + 1 + n = l + (n + 1) from by omega]

/-! Concrete states used by witnesses and counterexamples. -/

/-- Concrete namespace prefix (`"t"`). -/
def tpfx : List Nat := [116]

/-- Scenario state: empty deque after `push_front(2)`. -/
def stC5a : Stor := (DequeStore.push_front natCodec tpfx (initStor tpfx 0) 2).2

/-- After `push_back(3)`. -/
def stC5b : Stor := (DequeStore.push_back natCodec tpfx stC5a 3).2

/-- After `push_back(4)`. -/
def stC5c : Stor := (DequeStore.push_back natCodec tpfx stC5b 4).2

/-- After `push_front(1)`: contents `[1,2,3,4]`. -/
def stC5 : Stor := (DequeStore.push_front natCodec tpfx stC5c 1).2

/-- Append store holding the single item `5`. -/
def stA : Stor := (AppendStore.push natCodec tpfx emptyStor 5).2

/-- The same store after `pop()`: length 0, tombstone at slot 0. -/
def stApop : Stor := (AppendStore.pop natCodec tpfx stA).2

/-- The same store after `clear()`: length 0, slot bytes untouched. -/
def stAc : Stor := AppendStore.clear tpfx stA

/-- Append store holding `[7, 8]`. -/
def stB2 : Stor :=
  (AppendStore.push natCodec tpfx (AppendStore.push natCodec tpfx emptyStor 7).2 8).2

/-- Deque holding `[10, 20]` (two `push_back`s from empty). -/
def stD2 : Stor :=
  (DequeStore.push_back natCodec tpfx
    ((DequeStore.push_back natCodec tpfx (initStor tpfx 0) 10).2) 20).2

/-- Deque state whose persisted length is `2^32 - 1`. -/
def stMax : Stor := Stor.set emptyStor (DequeStore.lenKey tpfx) (toBe (U32 - 1))

/-- Deque state claiming one element but with no slot written. -/
def stMissing : Stor := Stor.set emptyStor (DequeStore.lenKey tpfx) (toBe 1)

/-- Append state claiming one element but with no slot written. -/
def stMissingA : Stor := Stor.set emptyStor (AppendStore.lenKey tpfx) (toBe 1)

/-- C5: starting empty, `push_front(2)`, `push_back(3)`, `push_back(4)`,
`push_front(1)` yields `[1,2,3,4]` with length 4; `remove(1)` returns `2` and
leaves `[1,3,4]` with length 3, via the head-ward shift: the offset moves from
`2^32 - 2` to `2^32 - 1` (incremented by one) and the item of logical slot 0
(the value 1) is rewritten one position up, at physical slot `2^32 - 1`. -/
theorem C5_concrete_scenario :
    DequeStore.iterAll natCodec tpfx stC5 = .ok [1, 2, 3, 4] ∧
    DequeStore.get_len tpfx stC5 = .ok 4 ∧
    (DequeStore.remove natCodec tpfx stC5 1).1 = .ok 2 ∧
    DequeStore.iterAll natCodec tpfx (DequeStore.remove natCodec tpfx stC5 1).2 =
      .ok [1, 3, 4] ∧
    DequeStore.get_len tpfx (DequeStore.remove natCodec tpfx stC5 1).2 = .ok 3 ∧
    DequeStore.get_off tpfx stC5 = .ok (U32 - 2) ∧
    DequeStore.get_off tpfx (DequeStore.remove natCodec tpfx stC5 1).2 = .ok (U32 - 1) ∧
    Stor.get (DequeStore.remove natCodec tpfx stC5 1).2
      (DequeStore.slotKey tpfx (U32 - 1)) = some [1] := by
  refine ⟨?_, ?_, ?_, ?_, ?_, ?_, ?_, ?_⟩ <;> rfl

/-- C2: the `AppendStore` bounds check uses `pos > len`, so after a push and a
pop (length back to 0) the call `get_at(0)` does not fail with a bounds error:
it reads the tombstone slot and returns the popped value `5`. -/
theorem C2_appendstore_get_at_returns_tombstone :
    AppendStore.get_len tpfx stApop = .ok 0 ∧
    AppendStore.get_at natCodec tpfx stApop 0 = .ok 5 := by
  exact ⟨rfl, rfl⟩

/-- C7: after `clear()` the length is 0 and the slot bytes are untouched, but
the `AppendStore` `pos > len` check lets `get_at(0)` through: it returns the
stale value `5` instead of failing, for as long as no new push occurred. -/
theorem C7_clear_appendstore_get_at_stale :
    AppendStore.get_len tpfx stAc = .ok 0 ∧
    Stor.get stAc (AppendStore.slotKey tpfx 0) = some [5] ∧
    AppendStore.get_at natCodec tpfx stAc 0 = .ok 5 := by
  exact ⟨rfl, rfl, rfl⟩

/-- C8 fails as stated at the wrap boundary: on a deque whose persisted
length is `2^32 - 1`, `push_back(7)` succeeds (wrapping the length to 0) and
the immediately following `pop_back` fails with the empty-collection error
instead of returning `7`, although the codec round-trips `7`. -/
theorem C8_counterexample :
    natCodec.ser 7 = .ok [7] ∧ natCodec.de [7] = .ok 7 ∧
    DequeStore.get_len tpfx stMax = .ok (U32 - 1) ∧
    (DequeStore.push_back natCodec tpfx stMax 7).1 = .ok () ∧
    (DequeStore.pop_back natCodec tpfx (DequeStore.push_back natCodec tpfx stMax 7).2).1 =
      .error (.genericErr "Can not pop from empty DequeStore") := by
  refine ⟨rfl, rfl, ?_, ?_, ?_⟩ <;> rfl

/-- C10 fails as stated for skip counts of `2^32` and beyond: on an iterator
with only two remaining elements, `nth(2^32)` truncates the cast `n as u32`
to 0 and returns the first element again instead of `None`; `nth_back(2^32)`
similarly re-reads the last element.  (On wasm32, `usize` cannot hold
`2^32`, so only the 64-bit targets reach this path.) -/
theorem C10_counterexample :
    (2 : Nat) ≤ U32 ∧
    (DequeStore.iterNth natCodec tpfx stD2 ⟨0, 2⟩ U32).1 = some (.ok 10) ∧
    (DequeStore.iterNthBack natCodec tpfx stD2 ⟨0, 2⟩ U32).1 = some (.ok 20) ∧
    (AppendStore.iterNth natCodec tpfx stA ⟨0, 1⟩ U32).1 = some (.ok 5) ∧
    (AppendStore.iterNthBack natCodec tpfx stA ⟨0, 1⟩ U32).1 = some (.ok 5) := by
  refine ⟨by decide, ?_, ?_, ?_, ?_⟩ <;> rfl

/-- C1 fails as stated: in the state `[1,2,3,4]` (offset `2^32 - 2`), the
position `pos = 2` is equidistant (`len - pos = 2 = pos`), yet `remove(2)`
increments the persisted offset — the head-ward branch ran, not the claimed
tail-ward one, because the code's strict comparison `to_tail < pos` sends
ties to the head-ward branch. -/
theorem C1_counterexample :
    DequeStore.get_len tpfx stC5 = .ok 4 ∧
    (4 : Nat) - 2 = 2 ∧
    DequeStore.get_off tpfx stC5 = .ok (U32 - 2) ∧
    DequeStore.get_off tpfx (DequeStore.remove natCodec tpfx stC5 2).2 =
      .ok (U32 - 1) := by
  refine ⟨?_, rfl, ?_, ?_⟩ <;> rfl

/-- C1 (amended): `remove` takes the tail-ward branch (offset unchanged)
exactly when `len - pos < pos`; in every other in-bounds case — including the
equidistant one `len - pos = pos` — it takes the head-ward branch and
increments the persisted offset by one modulo `2^32`. -/
theorem C1_remove_shift_direction {T : Type} {C : Codec T} (hC : C.RoundTrip)
    {pfx : List Nat} {st : Stor} {off : Nat} {model : List T} {pos : Nat}
    (hI : DequeStore.Inv C pfx st off model) (hpos : pos < model.length) :
    DequeStore.get_off pfx (DequeStore.remove C pfx st pos).2 =
      .ok (if model.length - pos < pos then off else (off + 1) % U32) := by
  obtain ⟨_, hI2⟩ := DequeStore.remove_spec hC hI hpos
  exact hI2.offOk

/-- Witness for the amended C1 at the equidistant input `pos = 2` of the
four-element scenario state. -/
theorem C1_remove_shift_direction_witness :
    DequeStore.get_off tpfx (DequeStore.remove natCodec tpfx stC5 2).2 =
      .ok (U32 - 1) := by
  have h0 := initStor_inv natCodec tpfx 0
  obtain ⟨_, h1⟩ := DequeStore.push_front_spec natCodec_roundTrip h0 2 (by decide)
  have h1a : DequeStore.Inv natCodec tpfx stC5a ((0 % U32 + (U32 - 1)) % U32) [2] := h1
  obtain ⟨_, h2⟩ := DequeStore.push_back_spec natCodec_roundTrip h1a 3 (by decide)
  have h2a : DequeStore.Inv natCodec tpfx stC5b ((0 % U32 + (U32 - 1)) % U32) [2, 3] := h2
  obtain ⟨_, h3⟩ := DequeStore.push_back_spec natCodec_roundTrip h2a 4 (by decide)
  have h3a : DequeStore.Inv natCodec tpfx stC5c ((0 % U32 + (U32 - 1)) % U32) [2, 3, 4] := h3
  obtain ⟨_, h4⟩ := DequeStore.push_front_spec natCodec_roundTrip h3a 1 (by decide)
  have h4a : DequeStore.Inv natCodec tpfx stC5
      (((0 % U32 + (U32 - 1)) % U32 + (U32 - 1)) % U32) [1, 2, 3, 4] := h4
  have h := C1_remove_shift_direction natCodec_roundTrip h4a
    (show 2 < ([1, 2, 3, 4] : List Nat).length by decide)
  rw [h]
  rfl

/-- C3: on any well-formed store state, `remove(pos)` with `pos < len`
returns the element at logical position `pos`, decrements the length, and the
remaining sequence observed through iteration is the original one with
position `pos` deleted — for the `DequeStore` (whichever shift direction is
chosen) and for the `AppendStore` (always tail-ward). -/
theorem C3_remove_order_preserved {T : Type} {C : Codec T} (hC : C.RoundTrip)
    (pfx : List Nat) :
    (∀ (st : Stor) (off : Nat) (model : List T) (pos : Nat)
      (_hI : DequeStore.Inv C pfx st off model) (h : pos < model.length),
      (DequeStore.remove C pfx st pos).1 = .ok model[pos] ∧
      DequeStore.get_len pfx (DequeStore.remove C pfx st pos).2 =
        .ok (model.length - 1) ∧
      DequeStore.iterAll C pfx (DequeStore.remove C pfx st pos).2 =
        .ok (model.eraseIdx pos)) ∧
    (∀ (st : Stor) (model : List T) (pos : Nat)
      (_hI : AppendStore.Inv C pfx st model) (h : pos < model.length),
      (AppendStore.remove C pfx st pos).1 = .ok model[pos] ∧
      AppendStore.get_len pfx (AppendStore.remove C pfx st pos).2 =
        .ok (model.length - 1) ∧
      AppendStore.iterAll C pfx (AppendStore.remove C pfx st pos).2 =
        .ok (model.eraseIdx pos)) := by
  constructor
  · intro st off model pos hI h
    obtain ⟨hval, hI2⟩ := DequeStore.remove_spec hC hI h
    refine ⟨hval, ?_, DequeStore.iterAll_inv hC hI2⟩
    have := hI2.lenOk
    rwa [List.length_eraseIdx, if_pos h] at this
  · intro st model pos hI h
    obtain ⟨hval, hI2⟩ := AppendStore.remove_spec_app hC hI h
    refine ⟨hval, ?_, AppendStore.iterAll_inv_app hC hI2⟩
    have := hI2.lenOk
    rwa [List.length_eraseIdx, if_pos h] at this

/-- Witness for C3: deque scenario state `[1,2,3,4]` with `remove(1)` and a
two-element append store `[7,8]` with `remove(0)`. -/
theorem C3_remove_order_preserved_witness :
    (DequeStore.remove natCodec tpfx stC5 1).1 = .ok 2 ∧
    DequeStore.iterAll natCodec tpfx (DequeStore.remove natCodec tpfx stC5 1).2 =
      .ok [1, 3, 4] ∧
    (AppendStore.remove natCodec tpfx stB2 0).1 = .ok 7 ∧
    AppendStore.iterAll natCodec tpfx (AppendStore.remove natCodec tpfx stB2 0).2 =
      .ok [8] := by
  obtain ⟨hd, ha⟩ := C3_remove_order_preserved natCodec_roundTrip tpfx
  have h0 := initStor_inv natCodec tpfx 0
  obtain ⟨_, h1⟩ := DequeStore.push_front_spec natCodec_roundTrip h0 2 (by decide)
  obtain ⟨_, h2⟩ := DequeStore.push_back_spec natCodec_roundTrip h1 3 (by decide)
  obtain ⟨_, h3⟩ := DequeStore.push_back_spec natCodec_roundTrip h2 4 (by decide)
  obtain ⟨_, h4⟩ := DequeStore.push_front_spec natCodec_roundTrip h3 1 (by decide)
  have h4a : DequeStore.Inv natCodec tpfx stC5
      (((0 % U32 + (U32 - 1)) % U32 + (U32 - 1)) % U32) [1, 2, 3, 4] := h4
  obtain ⟨hv, hl, hit⟩ := hd stC5 _ [1, 2, 3, 4] 1 h4a (by decide)
  have hA0 : AppendStore.Inv natCodec tpfx emptyStor ([] : List Nat) :=
    ⟨by decide, rfl, fun i hi => absurd hi (by simp)⟩
  obtain ⟨_, hA1⟩ := AppendStore.push_spec natCodec_roundTrip hA0 7 (by decide)
  obtain ⟨_, hA2⟩ := AppendStore.push_spec natCodec_roundTrip hA1 8 (by decide)
  have hA2a : AppendStore.Inv natCodec tpfx stB2 [7, 8] := hA2
  obtain ⟨hv2, hl2, hit2⟩ := ha stB2 [7, 8] 0 hA2a (by decide)
  exact ⟨hv, hit, hv2, hit2⟩

/-- C4 (amended): for every sequence of fewer than `2^32` pushes applied to
an empty deque, and every initial persisted offset value (wraparound
included), front-to-back iteration yields exactly the logical order implied
by the sequence: each `push_front` item before all earlier items, each
`push_back` item after them. -/
theorem C4_push_sequence_order {T : Type} {C : Codec T} (hC : C.RoundTrip)
    (pfx : List Nat) (ops : List (DOp T)) (o : Nat) (hlen : ops.length < U32) :
    DequeStore.iterAll C pfx (applyOps C pfx ops (initStor pfx o)) =
      .ok (modelOps ops []) :=
  pushSeq_iterAll hC pfx ops o hlen

/-- Witness for the amended C4: a mixed five-push sequence over an initial
offset of `2^32 - 2`, which makes the physical indices wrap. -/
theorem C4_push_sequence_order_witness :
    DequeStore.iterAll natCodec tpfx (applyOps natCodec tpfx
      [DOp.pushFront 2, DOp.pushBack 3, DOp.pushBack 4, DOp.pushFront 1, DOp.pushBack 5]
      (initStor tpfx (U32 - 2))) = .ok [1, 2, 3, 4, 5] := by
  have h := C4_push_sequence_order natCodec_roundTrip tpfx
    [DOp.pushFront 2, DOp.pushBack 3, DOp.pushBack 4, DOp.pushFront 1, DOp.pushBack 5]
    (U32 - 2) (by decide)
  exact h

/-- C4 fails as stated at exactly `2^32` pushes: the length counter wraps to
zero, so iterating the store yields the empty list while the implied logical
order has `2^32` items. -/
theorem C4_counterexample :
    DequeStore.iterAll natCodec tpfx
        (applyOps natCodec tpfx (List.replicate U32 (DOp.pushBack 0)) (initStor tpfx 0)) ≠
      .ok (modelOps (List.replicate U32 (DOp.pushBack (0 : Nat))) []) := by
  have hgen : ∀ st2 : Stor, DequeStore.get_len tpfx st2 = .ok 0 →
      DequeStore.iterAll natCodec tpfx st2 = .ok [] := by
    intro st2 h
    unfold DequeStore.iterAll DequeStore.iter
    rw [h]
    rfl
  have hlen := replicate_push_back_len (C := natCodec) tpfx (0 : Nat) (w := [0]) rfl U32
    (initStor tpfx 0) 0 0 (by decide) rfl rfl
  have hz : (0 + U32) % U32 = 0 := by simp
  rw [hz] at hlen
  have hiter := hgen _ hlen
  intro heq
  rw [hiter] at heq
  have h2 : ([] : List Nat) = modelOps (List.replicate U32 (DOp.pushBack (0 : Nat))) [] :=
    Except.ok.inj heq
  have h3 := congrArg List.length h2
  rw [modelOps_length, List.length_replicate] at h3
  exact absurd h3 (by decide)

/-- C6 (amended): for every store state and all page parameters with
`p * s ≤ 2^32`, `paging(p, s)` returns exactly what collecting
`iter().skip(p*s).take(s)` with a one-element-at-a-time skip returns, for
both stores.  (Beyond that product the `usize`-to-`u32` truncation in `nth`
breaks the equivalence — see the counterexample.) -/
theorem C6_paging_eq_skip_take {T : Type} (C : Codec T) (pfx : List Nat) (st : Stor)
    (p s : Nat) (hps : p * s ≤ U32) :
    DequeStore.paging C pfx st p s = DequeStore.pagingSpec C pfx st p s ∧
    AppendStore.paging C pfx st p s = AppendStore.pagingSpec C pfx st p s :=
  ⟨DequeStore.paging_eq_pagingSpec C pfx st p s hps,
   AppendStore.paging_eq_pagingSpec_app C pfx st p s hps⟩

/-- Witness for the amended C6 on concrete two-element stores with
`p = 1, s = 1`, where both sides evaluate to the second element. -/
theorem C6_paging_eq_skip_take_witness :
    DequeStore.paging natCodec tpfx stD2 1 1 = DequeStore.pagingSpec natCodec tpfx stD2 1 1 ∧
    AppendStore.paging natCodec tpfx stB2 1 1 = AppendStore.pagingSpec natCodec tpfx stB2 1 1 ∧
    DequeStore.paging natCodec tpfx stD2 1 1 = .ok [20] := by
  refine ⟨(C6_paging_eq_skip_take natCodec tpfx stD2 1 1 (by decide)).1,
    (C6_paging_eq_skip_take natCodec tpfx stB2 1 1 (by decide)).2, ?_⟩
  rfl

/-- C6 fails as stated for `p * s = 2^32 + 1` (`641 * 6700417`): on the
two-element deque `[10, 20]`, the code's `paging` truncates the skip inside
`nth` modulo `2^32` and returns `[20]`, while skipping `2^32 + 1` elements
one at a time exhausts the iterator and returns `[]`. -/
theorem C6_counterexample :
    DequeStore.paging natCodec tpfx stD2 641 6700417 = .ok [20] ∧
    DequeStore.pagingSpec natCodec tpfx stD2 641 6700417 = .ok [] := by
  constructor
  · rfl
  · unfold DequeStore.pagingSpec DequeStore.iter
    rw [show DequeStore.get_len tpfx stD2 = .ok 2 from rfl]
    show DequeStore.collectN natCodec tpfx stD2 6700417
      ((DequeStore.skipOne natCodec tpfx stD2)^[641 * 6700417] ⟨0, 2⟩) = .ok []
    rw [DequeStore.skipOne_iterate natCodec tpfx stD2 (641 * 6700417) 0 2 (by omega)]
    rw [show min (0 + 641 * 6700417) 2 = 2 from by decide]
    exact DequeStore.collectN_exhausted natCodec tpfx stD2 6700417 ⟨2, 2⟩ (Nat.le_refl 2)

/-- C8 (amended): on any state whose persisted length satisfies
`len + 1 < 2^32`, `push_back(x)` followed immediately by `pop_back()`
succeeds, returns `x`, and restores the length — for every item whose codec
round-trips.  (At `len = 2^32 - 1` the length wraps and the pop fails; see
the counterexample.) -/
theorem C8_push_pop_roundtrip {T : Type} {C : Codec T}
    (pfx : List Nat) (st : Stor) (x : T) {w : List Nat} (len off : Nat)
    (hser : C.ser x = .ok w) (hde : C.de w = .ok x)
    (hlen : DequeStore.get_len pfx st = .ok len)
    (hoff : DequeStore.get_off pfx st = .ok off)
    (hbound : len + 1 < U32) :
    (DequeStore.push_back C pfx st x).1 = .ok () ∧
    (DequeStore.pop_back C pfx (DequeStore.push_back C pfx st x).2).1 = .ok x ∧
    DequeStore.get_len pfx
      (DequeStore.pop_back C pfx (DequeStore.push_back C pfx st x).2).2 = .ok len := by
  have hstep : DequeStore.push_back C pfx st x =
      (.ok (), DequeStore.set_len pfx ((len + 1) % U32)
        (Stor.set st (DequeStore.slotKey pfx ((len + off) % U32)) w)) := by
    unfold DequeStore.push_back
    rw [hlen]
    show (match DequeStore.set_at_unchecked C pfx st len x with
      | (Except.error e, st1) => (Except.error e, st1)
      | (Except.ok _, st1) =>
        (Except.ok (), DequeStore.set_len pfx ((len + 1) % U32) st1)) = _
    rw [DequeStore.set_at_unchecked_inv hoff len x hser]
  have hlen1 : DequeStore.get_len pfx (DequeStore.push_back C pfx st x).2 =
      .ok (len + 1) := by
    rw [hstep]
    show DequeStore.get_len pfx (DequeStore.set_len pfx ((len + 1) % U32) _) = _
    rw [DequeStore.get_len_set_len, Nat.mod_mod_of_dvd _ (dvd_refl U32),
      Nat.mod_eq_of_lt hbound]
  have hoff1 : DequeStore.get_off pfx (DequeStore.push_back C pfx st x).2 = .ok off := by
    rw [hstep]
    show DequeStore.get_off pfx (DequeStore.set_len pfx _ _) = _
    rw [DequeStore.get_off_set_len, DequeStore.get_off_set_slot]
    exact hoff
  have hget : (DequeStore.set_len pfx ((len + 1) % U32)
      (Stor.set st (DequeStore.slotKey pfx ((len + off) % U32)) w)).get
      (DequeStore.slotKey pfx ((len + off) % U32)) = some w := by
    unfold DequeStore.set_len DequeStore.setU32
    rw [show pfx ++ DequeStore.lenSuffix = DequeStore.lenKey pfx from rfl,
      Stor.get_set_ne _ _ _ (DequeStore.lenKey_ne_slotKey pfx _).symm, Stor.get_set_self]
  have hitem : DequeStore.get_at_unchecked C pfx
      (DequeStore.push_back C pfx st x).2 len = .ok x := by
    unfold DequeStore.get_at_unchecked DequeStore.getOffsetPos
    rw [hoff1]
    show DequeStore.load_impl C pfx (toBe ((len + off) % U32))
      (DequeStore.push_back C pfx st x).2 = _
    unfold DequeStore.load_impl
    rw [hstep]
    show (match (DequeStore.set_len pfx ((len + 1) % U32)
        (Stor.set st (DequeStore.slotKey pfx ((len + off) % U32)) w)).get
        (DequeStore.slotKey pfx ((len + off) % U32)) with
      | none => (Except.error (StdErr.notFound "T") : Except StdErr T)
      | some v => C.de v) = _
    rw [hget]
    exact hde
  have hpop : DequeStore.pop_back C pfx (DequeStore.push_back C pfx st x).2 =
      (.ok x, DequeStore.set_len pfx len (DequeStore.push_back C pfx st x).2) := by
    unfold DequeStore.pop_back
    rw [hlen1]
    show (if len + 1 = 0 then _
      else (DequeStore.get_at_unchecked C pfx (DequeStore.push_back C pfx st x).2
          (len + 1 - 1),
        DequeStore.set_len pfx (len + 1 - 1) (DequeStore.push_back C pfx st x).2)) = _
    rw [if_neg (by omega), show len + 1 - 1 = len from by omega, hitem]
  refine ⟨by rw [hstep], by rw [hpop], ?_⟩
  rw [hpop]
  show DequeStore.get_len pfx (DequeStore.set_len pfx len _) = _
  rw [DequeStore.get_len_set_len, Nat.mod_eq_of_lt (by omega)]

/-- Witness for the amended C8 on the empty deque and the item `9`. -/
theorem C8_push_pop_roundtrip_witness :
    (DequeStore.pop_back natCodec tpfx
      (DequeStore.push_back natCodec tpfx (initStor tpfx 0) 9).2).1 = .ok 9 := by
  have h := C8_push_pop_roundtrip (C := natCodec) tpfx (initStor tpfx 0) 9 (w := [9]) 0 0
    rfl rfl rfl rfl (by decide)
  exact h.2.1

/-- C9: the pops are not atomic on error.  On any state with `len >= 1`, if
the slot read fails, `pop_back` (deque), `pop_front` (deque) and `pop`
(append store) return that error and nevertheless persist the decremented
length, `pop_front` additionally persisting the advanced offset. -/
theorem C9_pop_persists_on_error {T : Type} {C : Codec T} (pfx : List Nat) :
    (∀ (st : Stor) (len : Nat) (e : StdErr),
      DequeStore.get_len pfx st = .ok len → len ≠ 0 → len < U32 →
      DequeStore.get_at_unchecked C pfx st (len - 1) = .error e →
      (DequeStore.pop_back C pfx st).1 = .error e ∧
        DequeStore.get_len pfx (DequeStore.pop_back C pfx st).2 = .ok (len - 1)) ∧
    (∀ (st : Stor) (len off : Nat) (e : StdErr),
      DequeStore.get_len pfx st = .ok len → len ≠ 0 → len < U32 →
      DequeStore.get_off pfx st = .ok off →
      DequeStore.get_at_unchecked C pfx st 0 = .error e →
      (DequeStore.pop_front C pfx st).1 = .error e ∧
        DequeStore.get_len pfx (DequeStore.pop_front C pfx st).2 = .ok (len - 1) ∧
        DequeStore.get_off pfx (DequeStore.pop_front C pfx st).2 = .ok ((off + 1) % U32)) ∧
    (∀ (st : Stor) (len : Nat) (e : StdErr),
      AppendStore.get_len pfx st = .ok len → len ≠ 0 → len < U32 →
      AppendStore.get_at_unchecked C pfx st (len - 1) = .error e →
      (AppendStore.pop C pfx st).1 = .error e ∧
        AppendStore.get_len pfx (AppendStore.pop C pfx st).2 = .ok (len - 1)) := by
  refine ⟨?_, ?_, ?_⟩
  · intro st len e hlen hne hlt hfail
    have hred : DequeStore.pop_back C pfx st =
        (DequeStore.get_at_unchecked C pfx st (len - 1),
          DequeStore.set_len pfx (len - 1) st) := by
      unfold DequeStore.pop_back
      rw [hlen]
      show (if len = 0 then _
        else (DequeStore.get_at_unchecked C pfx st (len - 1),
          DequeStore.set_len pfx (len - 1) st)) = _
      rw [if_neg hne]
    rw [hred, hfail]
    refine ⟨rfl, ?_⟩
    show DequeStore.get_len pfx (DequeStore.set_len pfx (len - 1) st) = _
    rw [DequeStore.get_len_set_len, Nat.mod_eq_of_lt (by omega)]
  · intro st len off e hlen hne hlt hoff hfail
    have hred : DequeStore.pop_front C pfx st =
        (DequeStore.get_at_unchecked C pfx st 0,
          DequeStore.set_off pfx ((off + 1) % U32)
            (DequeStore.set_len pfx (len - 1) st)) := by
      unfold DequeStore.pop_front
      rw [hlen]
      show (if len = 0 then _
        else match DequeStore.get_off pfx st with
          | Except.error e2 => (Except.error e2, st)
          | Except.ok off2 =>
            (DequeStore.get_at_unchecked C pfx st 0,
              DequeStore.set_off pfx ((off2 + 1) % U32)
                (DequeStore.set_len pfx (len - 1) st))) = _
      rw [if_neg hne, hoff]
    rw [hred, hfail]
    refine ⟨rfl, ?_, ?_⟩
    · show DequeStore.get_len pfx
        (DequeStore.set_off pfx _ (DequeStore.set_len pfx (len - 1) st)) = _
      rw [DequeStore.get_len_set_off, DequeStore.get_len_set_len,
        Nat.mod_eq_of_lt (by omega)]
    · show DequeStore.get_off pfx (DequeStore.set_off pfx ((off + 1) % U32) _) = _
      rw [DequeStore.get_off_set_off, Nat.mod_mod_of_dvd _ (dvd_refl U32)]
  · intro st len e hlen hne hlt hfail
    have hred : AppendStore.pop C pfx st =
        (AppendStore.get_at_unchecked C pfx st (len - 1),
          AppendStore.set_len pfx (len - 1) st) := by
      unfold AppendStore.pop
      rw [hlen]
      show (if len = 0 then _
        else (AppendStore.get_at_unchecked C pfx st (len - 1),
          AppendStore.set_len pfx (len - 1) st)) = _
      rw [if_neg hne]
    rw [hred, hfail]
    refine ⟨rfl, ?_⟩
    show AppendStore.get_len pfx (AppendStore.set_len pfx (len - 1) st) = _
    rw [AppendStore.get_len_set_len_app, Nat.mod_eq_of_lt (by omega)]

/-- Witness for C9 on states that claim one element but hold no slot bytes:
every pop fails with the not-found error, yet the length is persisted as 0
and `pop_front` persists offset 1. -/
theorem C9_pop_persists_on_error_witness :
    (DequeStore.pop_back natCodec tpfx stMissing).1 = .error (.notFound "T") ∧
    DequeStore.get_len tpfx (DequeStore.pop_back natCodec tpfx stMissing).2 = .ok 0 ∧
    (DequeStore.pop_front natCodec tpfx stMissing).1 = .error (.notFound "T") ∧
    DequeStore.get_len tpfx (DequeStore.pop_front natCodec tpfx stMissing).2 = .ok 0 ∧
    DequeStore.get_off tpfx (DequeStore.pop_front natCodec tpfx stMissing).2 = .ok 1 ∧
    (AppendStore.pop natCodec tpfx stMissingA).1 = .error (.notFound "T") ∧
    AppendStore.get_len tpfx (AppendStore.pop natCodec tpfx stMissingA).2 = .ok 0 := by
  obtain ⟨hb, hf, ha⟩ := C9_pop_persists_on_error (C := natCodec) tpfx
  obtain ⟨h1, h2⟩ := hb stMissing 1 (.notFound "T") rfl (by decide) (by decide) rfl
  obtain ⟨h3, h4, h5⟩ := hf stMissing 1 0 (.notFound "T") rfl (by decide) (by decide) rfl rfl
  obtain ⟨h6, h7⟩ := ha stMissingA 1 (.notFound "T") rfl (by decide) (by decide) rfl
  exact ⟨h1, h2, h3, h4, by rw [h5]; rfl, h6, h7⟩

namespace DequeStore

theorem iterNext_exhausted {T : Type} (C : Codec T) (pfx : List Nat) (st : Stor)
    (it : Iter) (h : it.start ≥ it.stop) : iterNext C pfx st it = (none, it) := by
  unfold iterNext
  rw [if_pos h]

theorem iterNextBack_exhausted {T : Type} (C : Codec T) (pfx : List Nat) (st : Stor)
    (it : Iter) (h : it.start ≥ it.stop) : iterNextBack C pfx st it = (none, it) := by
  unfold iterNextBack
  rw [if_pos h]

theorem iterNth_exhausts {T : Type} (C : Codec T) (pfx : List Nat) (st : Stor)
    (a b n : Nat) (hn : n < U32) (hb : b < U32) (hskip : b ≤ a + n) :
    iterNth C pfx st ⟨a, b⟩ n = (none, ⟨min (a + n) (U32 - 1), b⟩) := by
  unfold iterNth
  have hmod : (⟨min ((⟨a, b⟩ : Iter).start + n % U32) (U32 - 1), (⟨a, b⟩ : Iter).stop⟩ : Iter)
      = ⟨min (a + n) (U32 - 1), b⟩ := by
    show (⟨min (a + n % U32) (U32 - 1), b⟩ : Iter) = _
    rw [Nat.mod_eq_of_lt hn]
  rw [hmod]
  refine iterNext_exhausted C pfx st _ ?_
  show min (a + n) (U32 - 1) ≥ b
  simp only [U32] at hn hb hskip ⊢
  omega

theorem iterNthBack_exhausts {T : Type} (C : Codec T) (pfx : List Nat) (st : Stor)
    (a b n : Nat) (hn : n < U32) (hskip : b ≤ a + n) :
    iterNthBack C pfx st ⟨a, b⟩ n = (none, ⟨a, b - n⟩) := by
  unfold iterNthBack
  have hmod : (⟨(⟨a, b⟩ : Iter).start, (⟨a, b⟩ : Iter).stop - n % U32⟩ : Iter)
      = ⟨a, b - n⟩ := by
    show (⟨a, b - n % U32⟩ : Iter) = _
    rw [Nat.mod_eq_of_lt hn]
  rw [hmod]
  refine iterNextBack_exhausted C pfx st _ ?_
  show a ≥ b - n
  omega

end DequeStore

namespace AppendStore

theorem iterNext_exhausted_app {T : Type} (C : Codec T) (pfx : List Nat) (st : Stor)
    (it : DequeStore.Iter) (h : it.start ≥ it.stop) : iterNext C pfx st it = (none, it) := by
  unfold iterNext
  rw [if_pos h]

theorem iterNextBack_exhausted_app {T : Type} (C : Codec T) (pfx : List Nat) (st : Stor)
    (it : DequeStore.Iter) (h : it.start ≥ it.stop) :
    iterNextBack C pfx st it = (none, it) := by
  unfold iterNextBack
  rw [if_pos h]

theorem iterNth_exhausts_app {T : Type} (C : Codec T) (pfx : List Nat) (st : Stor)
    (a b n : Nat) (hn : n < U32) (hb : b < U32) (hskip : b ≤ a + n) :
    iterNth C pfx st ⟨a, b⟩ n = (none, ⟨min (a + n) (U32 - 1), b⟩) := by
  unfold iterNth
  have hmod : (⟨min ((⟨a, b⟩ : DequeStore.Iter).start + n % U32) (U32 - 1),
      (⟨a, b⟩ : DequeStore.Iter).stop⟩ : DequeStore.Iter)
      = ⟨min (a + n) (U32 - 1), b⟩ := by
    show (⟨min (a + n % U32) (U32 - 1), b⟩ : DequeStore.Iter) = _
    rw [Nat.mod_eq_of_lt hn]
  rw [hmod]
  refine iterNext_exhausted_app C pfx st _ ?_
  show min (a + n) (U32 - 1) ≥ b
  simp only [U32] at hn hb hskip ⊢
  omega

theorem iterNthBack_exhausts_app {T : Type} (C : Codec T) (pfx : List Nat) (st : Stor)
    (a b n : Nat) (hn : n < U32) (hskip : b ≤ a + n) :
    iterNthBack C pfx st ⟨a, b⟩ n = (none, ⟨a, b - n⟩) := by
  unfold iterNthBack
  have hmod : (⟨(⟨a, b⟩ : DequeStore.Iter).start,
      (⟨a, b⟩ : DequeStore.Iter).stop - n % U32⟩ : DequeStore.Iter) = ⟨a, b - n⟩ := by
    show (⟨a, b - n % U32⟩ : DequeStore.Iter) = _
    rw [Nat.mod_eq_of_lt hn]
  rw [hmod]
  refine iterNextBack_exhausted_app C pfx st _ ?_
  show a ≥ b - n
  omega

end AppendStore

/-- C10 (amended): for every iterator window and every skip count `n < 2^32`
(every representable count on the wasm32 target, where `usize` is 32 bits),
`nth(n)` and `nth_back(n)` saturate: skipping at least the remaining
`stop - start` elements yields `None`, and every subsequent `next`/`nth(m)`
(resp. `next_back`/`nth_back(m)`) with `m < 2^32` also yields `None` — no
wraparound, no revisited element, for both stores.  (For `n ≥ 2^32`, only
reachable on 64-bit targets, the `n as u32` cast wraps and elements are
revisited; see the counterexample.) -/
theorem C10_nth_saturating {T : Type} (C : Codec T) (pfx : List Nat) (st : Stor)
    (a b n : Nat) (hn : n < U32) (hb : b < U32) (hskip : b - a ≤ n) :
    ((DequeStore.iterNth C pfx st ⟨a, b⟩ n).1 = none ∧
      (DequeStore.iterNext C pfx st (DequeStore.iterNth C pfx st ⟨a, b⟩ n).2).1 = none ∧
      ∀ m : Nat, m < U32 →
        (DequeStore.iterNth C pfx st (DequeStore.iterNth C pfx st ⟨a, b⟩ n).2 m).1 = none) ∧
    ((DequeStore.iterNthBack C pfx st ⟨a, b⟩ n).1 = none ∧
      (DequeStore.iterNextBack C pfx st
        (DequeStore.iterNthBack C pfx st ⟨a, b⟩ n).2).1 = none ∧
      ∀ m : Nat,
        (DequeStore.iterNthBack C pfx st
          (DequeStore.iterNthBack C pfx st ⟨a, b⟩ n).2 m).1 = none) ∧
    ((AppendStore.iterNth C pfx st ⟨a, b⟩ n).1 = none ∧
      (AppendStore.iterNext C pfx st (AppendStore.iterNth C pfx st ⟨a, b⟩ n).2).1 = none ∧
      ∀ m : Nat, m < U32 →
        (AppendStore.iterNth C pfx st (AppendStore.iterNth C pfx st ⟨a, b⟩ n).2 m).1 = none) ∧
    ((AppendStore.iterNthBack C pfx st ⟨a, b⟩ n).1 = none ∧
      (AppendStore.iterNextBack C pfx st
        (AppendStore.iterNthBack C pfx st ⟨a, b⟩ n).2).1 = none ∧
      ∀ m : Nat,
        (AppendStore.iterNthBack C pfx st
          (AppendStore.iterNthBack C pfx st ⟨a, b⟩ n).2 m).1 = none) := by
  have hU : 0 < U32 := by simp [U32]
  have hskip2 : b ≤ a + n := by omega
  have hD := DequeStore.iterNth_exhausts C pfx st a b n hn hb hskip2
  have hDB := DequeStore.iterNthBack_exhausts C pfx st a b n hn hskip2
  have hA := AppendStore.iterNth_exhausts_app C pfx st a b n hn hb hskip2
  have hAB := AppendStore.iterNthBack_exhausts_app C pfx st a b n hn hskip2
  have hcur : b ≤ min (a + n) (U32 - 1) := by
    simp only [U32] at hn hb hskip2 ⊢
    omega
  refine ⟨⟨by rw [hD], ?_, ?_⟩, ⟨by rw [hDB], ?_, ?_⟩,
    ⟨by rw [hA], ?_, ?_⟩, ⟨by rw [hAB], ?_, ?_⟩⟩
  · rw [hD, DequeStore.iterNext_exhausted C pfx st _ hcur]
  · intro m hm
    rw [hD, DequeStore.iterNth_exhausts C pfx st _ b m hm hb (by omega)]
  · rw [hDB, DequeStore.iterNextBack_exhausted C pfx st _ (by show a ≥ b - n; omega)]
  · intro m
    rw [hDB]
    by_cases hmU : m < U32
    · rw [DequeStore.iterNthBack_exhausts C pfx st a (b - n) m hmU (by omega)]
    · unfold DequeStore.iterNthBack
      refine (congrArg Prod.fst (DequeStore.iterNextBack_exhausted C pfx st _ ?_)).trans rfl
      show a ≥ b - n - m % U32
      omega
  · rw [hA, AppendStore.iterNext_exhausted_app C pfx st _ hcur]
  · intro m hm
    rw [hA, AppendStore.iterNth_exhausts_app C pfx st _ b m hm hb (by omega)]
  · rw [hAB, AppendStore.iterNextBack_exhausted_app C pfx st _ (by show a ≥ b - n; omega)]
  · intro m
    rw [hAB]
    by_cases hmU : m < U32
    · rw [AppendStore.iterNthBack_exhausts_app C pfx st a (b - n) m hmU (by omega)]
    · unfold AppendStore.iterNthBack
      refine (congrArg Prod.fst (AppendStore.iterNextBack_exhausted_app C pfx st _ ?_)).trans rfl
      show a ≥ b - n - m % U32
      omega

/-- Witness for the amended C10 on the two-element window `[0, 2)` with
`n = 5`. -/
theorem C10_nth_saturating_witness :
    (DequeStore.iterNth natCodec tpfx stD2 ⟨0, 2⟩ 5).1 = none ∧
    (DequeStore.iterNthBack natCodec tpfx stD2 ⟨0, 2⟩ 5).1 = none ∧
    (AppendStore.iterNth natCodec tpfx stD2 ⟨0, 2⟩ 5).1 = none ∧
    (AppendStore.iterNthBack natCodec tpfx stD2 ⟨0, 2⟩ 5).1 = none := by
  obtain ⟨⟨h1, _, _⟩, ⟨h2, _, _⟩, ⟨h3, _, _⟩, ⟨h4, _, _⟩⟩ :=
    C10_nth_saturating natCodec tpfx stD2 0 2 5 (by decide) (by decide) (by decide)
  exact ⟨h1, h2, h3, h4⟩
